import Mathlib

/-!
# mimedescription: the generator and the lookup accessor

A shallow embedding of `mimedescription.go` (the accessor `Get`) and of
`cmd/generator/main.go` (`escapeString`, `parseMimeXML`, `generateGoFile`,
`main`), followed by the properties of the specification that concern them.

Modelling choices.

* A Go `string` is a finite sequence of bytes (`GoString`).  The statement
  `for _, r := range s` decodes UTF-8 and yields `U+FFFD` for every byte that
  does not start a well-formed encoding (`decodeRune`, `rangeRunes`);
  `strings.Builder.WriteRune` appends the UTF-8 encoding of a rune
  (`encodeRune`).  Go writes both with masks and shifts on machine bytes; here
  they are the equal `Nat` expressions with `/`, `%` and explicit reduction
  modulo 256 (`toByte`).
* A Go `rune` is a natural number, the code point; `range` only produces
  values in `[0, 0x10FFFF]`.
* A Go `map[string]string` is an association list (`GoMap`) read with
  `GoMap.get?` and written with `GoMap.set`, which replaces the value of a key
  that is already there; a well-formed map has no key twice (`GoMap.WF`).
* `encoding/xml` is outside the repository.  What `parseMimeXML` observes of it
  is the sequence of results of the calls `decoder.Token()` made by its loop,
  each start element carrying the result that `decoder.DecodeElement` gives for
  it (`TokenRead`); the end of the sequence is `io.EOF`.
* `net/http`, `text/template`, `go/format`, the clock and the file system are
  the fields of `Env`; the output file is the explicit state `FileState`.
-/

namespace MimeDescription

/-! ## Go strings, runes and UTF-8 -/

/-- A byte of a Go string. -/
abbrev Byte := Fin 256

/-- A Go `string`: an immutable sequence of bytes, not necessarily valid UTF-8. -/
abbrev GoString := List Byte

/-- The conversion `byte(x)`: reduction modulo 256. -/
def toByte (n : Nat) : Byte := ⟨n % 256, Nat.mod_lt _ (by decide)⟩

/-- The constant `utf8.RuneError`, the replacement character `U+FFFD`. -/
def RuneError : Nat := 0xFFFD

/-- The constant `utf8.MaxRune`. -/
def MaxRune : Nat := 0x10FFFF

/-- The rune literal for the backslash, written with its code point. -/
def backslash : Nat := 0x5C

/-- The rune literal for the double quote, written with its code point. -/
def dquote : Nat := 0x22

/-- The rune literal for the newline. -/
def newline : Nat := 0x0A

/-- The byte order mark `U+FEFF`. -/
def bom : Nat := 0xFEFF

/-- A Unicode scalar value: a code point that is not a surrogate half. -/
def validRune (r : Nat) : Bool :=
  decide (r < 0xD800) || (decide (0xE000 ≤ r) && decide (r ≤ MaxRune))

/-- The function `utf8.AppendRune` (used by `strings.Builder.WriteRune`): the
UTF-8 encoding of `r`, or that of `RuneError` when `r` is out of range or a
surrogate. -/
def encodeRune (r : Nat) : GoString :=
  if r ≤ 0x7F then [toByte r]
  else if r ≤ 0x7FF then [toByte (0xC0 + r / 64), toByte (0x80 + r % 64)]
  else if r > MaxRune ∨ (0xD800 ≤ r ∧ r ≤ 0xDFFF) then [0xEF, 0xBF, 0xBD]
  else if r ≤ 0xFFFF then
    [toByte (0xE0 + r / 4096), toByte (0x80 + r / 64 % 64), toByte (0x80 + r % 64)]
  else
    [toByte (0xF0 + r / 262144), toByte (0x80 + r / 4096 % 64),
     toByte (0x80 + r / 64 % 64), toByte (0x80 + r % 64)]

/-- A continuation byte, in `locb ..= hicb`. -/
def isCont (b : Byte) : Bool := decide (0x80 ≤ b.val) && decide (b.val ≤ 0xBF)

/-- The table `utf8.first` with `utf8.acceptRanges`: for a leading byte of a
multi-byte encoding, the length of the encoding and the bounds accepted for the
second byte; `none` for a byte that starts no multi-byte encoding. -/
def leadInfo (b0 : Nat) : Option (Nat × Nat × Nat) :=
  if 0xC2 ≤ b0 ∧ b0 ≤ 0xDF then some (2, 0x80, 0xBF)
  else if b0 = 0xE0 then some (3, 0xA0, 0xBF)
  else if 0xE1 ≤ b0 ∧ b0 ≤ 0xEC then some (3, 0x80, 0xBF)
  else if b0 = 0xED then some (3, 0x80, 0x9F)
  else if 0xEE ≤ b0 ∧ b0 ≤ 0xEF then some (3, 0x80, 0xBF)
  else if b0 = 0xF0 then some (4, 0x90, 0xBF)
  else if 0xF1 ≤ b0 ∧ b0 ≤ 0xF3 then some (4, 0x80, 0xBF)
  else if b0 = 0xF4 then some (4, 0x80, 0x8F)
  else none

/-- The function `utf8.DecodeRuneInString`: the first rune of `s` and the number
of bytes it occupies; `(RuneError, 1)` when `s` does not start with a
well-formed encoding and `(RuneError, 0)` when `s` is empty. -/
def decodeRune : GoString → Nat × Nat
  | [] => (RuneError, 0)
  | s0 :: rest =>
    if s0.val < 0x80 then (s0.val, 1)
    else
      match leadInfo s0.val with
      | none => (RuneError, 1)
      | some (sz, lo, hi) =>
        if rest.length + 1 < sz then (RuneError, 1)
        else
          match rest with
          | [] => (RuneError, 1)
          | s1 :: rest1 =>
            if s1.val < lo ∨ hi < s1.val then (RuneError, 1)
            else if sz ≤ 2 then (s0.val % 32 * 64 + s1.val % 64, 2)
            else
              match rest1 with
              | [] => (RuneError, 1)
              | s2 :: rest2 =>
                if isCont s2 = false then (RuneError, 1)
                else if sz ≤ 3 then
                  (s0.val % 16 * 4096 + s1.val % 64 * 64 + s2.val % 64, 3)
                else
                  match rest2 with
                  | [] => (RuneError, 1)
                  | s3 :: _ =>
                    if isCont s3 = false then (RuneError, 1)
                    else
                      (s0.val % 8 * 262144 + s1.val % 64 * 4096
                        + s2.val % 64 * 64 + s3.val % 64, 4)

/-- The runes that `for _, r := range s` yields, in order; the loop advances by
the size of each decoded rune, which is at least one byte, so `fuel` equal to
the length of `s` is never exhausted. -/
def rangeRunesAux : Nat → GoString → List Nat
  | _, [] => []
  | 0, _ :: _ => []
  | fuel + 1, b :: rest =>
    (decodeRune (b :: rest)).1
      :: rangeRunesAux fuel ((b :: rest).drop (decodeRune (b :: rest)).2)

/-- The runes that `for _, r := range s` yields. -/
def rangeRunes (s : GoString) : List Nat := rangeRunesAux s.length s

/-- The UTF-8 encoding of a sequence of runes. -/
def encodeRunes (rs : List Nat) : GoString := rs.flatMap encodeRune

/-- A string literal of the model: the UTF-8 bytes of a Lean string. -/
def lit (s : String) : GoString := encodeRunes (s.toList.map Char.toNat)

/-- Valid UTF-8: the encoding of a sequence of Unicode scalar values. -/
def ValidUTF8 (s : GoString) : Prop :=
  ∃ rs : List Nat, (∀ r ∈ rs, validRune r = true) ∧ s = encodeRunes rs

/-! ## `escapeString` (cmd/generator/main.go, lines 147-161) -/

/-- One iteration of the loop of `escapeString`: the `switch` on the rune,
appending to the `strings.Builder`. -/
def escapeStep (result : GoString) (r : Nat) : GoString :=
  if r = backslash then result ++ [toByte backslash, toByte backslash]
  else if r = dquote then result ++ [toByte backslash, toByte dquote]
  else result ++ encodeRune r

/-- The function `escapeString`: escapes backslashes and double quotes. -/
def escapeString (s : GoString) : GoString :=
  (rangeRunes s).foldl escapeStep []

/-- The image of one character under the escaping rule of the specification. -/
def escapeImage (r : Nat) : GoString :=
  if r = backslash then [toByte backslash, toByte backslash]
  else if r = dquote then [toByte backslash, toByte dquote]
  else encodeRune r

/-- The image of one character under the escaping rule, as characters. -/
def escapeRunes (r : Nat) : List Nat :=
  if r = backslash then [backslash, backslash]
  else if r = dquote then [backslash, dquote]
  else [r]

/-! ## Go interpreted string literals

The source text between and including the two double quotes, as `go/scanner`
reads it and `strconv.Unquote` decodes it (Go language specification, "String
literals"). -/

/-- The characters of a piece of Go source text as `go/scanner` reads them
(`Scanner.next`): an ill-formed encoding, the character NUL and a byte order
mark past the start of the file are errors. -/
def sourceRunesAux : Nat → GoString → Option (List Nat)
  | _, [] => some []
  | 0, _ :: _ => none
  | fuel + 1, b :: rest =>
    let r := (decodeRune (b :: rest)).1
    let size := (decodeRune (b :: rest)).2
    if (r = RuneError ∧ size = 1) ∨ r = 0 ∨ r = bom then none
    else (sourceRunesAux fuel ((b :: rest).drop size)).map (r :: ·)

/-- The characters of a piece of Go source text. -/
def sourceRunes (src : GoString) : Option (List Nat) := sourceRunesAux src.length src

/-- The value of a hexadecimal digit. -/
def hexVal (r : Nat) : Option Nat :=
  if 0x30 ≤ r ∧ r ≤ 0x39 then some (r - 0x30)
  else if 0x61 ≤ r ∧ r ≤ 0x66 then some (r - 0x61 + 10)
  else if 0x41 ≤ r ∧ r ≤ 0x46 then some (r - 0x41 + 10)
  else none

/-- The value of an octal digit. -/
def octVal (r : Nat) : Option Nat :=
  if 0x30 ≤ r ∧ r ≤ 0x37 then some (r - 0x30) else none

/-- Reads exactly `n` digits in base `base`; the value read and the rest. -/
def readDigits (digit : Nat → Option Nat) (base : Nat) :
    Nat → Nat → List Nat → Option (Nat × List Nat)
  | 0, acc, rs => some (acc, rs)
  | _ + 1, _, [] => none
  | n + 1, acc, r :: rs =>
    match digit r with
    | none => none
    | some d => readDigits digit base n (acc * base + d) rs

/-- The single-character escapes allowed in an interpreted string literal
(`\a \b \f \n \r \t \v \\ \"`) and the byte each stands for. -/
def simpleEscape (c : Nat) : Option Byte :=
  if c = 0x61 then some 0x07
  else if c = 0x62 then some 0x08
  else if c = 0x66 then some 0x0C
  else if c = 0x6E then some 0x0A
  else if c = 0x72 then some 0x0D
  else if c = 0x74 then some 0x09
  else if c = 0x76 then some 0x0B
  else if c = backslash then some (toByte backslash)
  else if c = dquote then some (toByte dquote)
  else none

/-- The value of the body of an interpreted string literal, the text after the
opening double quote: it ends at the first unescaped double quote, which has to
be the last character of the text; a newline, an invalid escape sequence and a
missing closing quote are errors. -/
def unquoteBodyAux : Nat → List Nat → Option GoString
  | 0, _ => none
  | _ + 1, [] => none
  | fuel + 1, r :: rs =>
    if r = dquote then (if rs = [] then some [] else none)
    else if r = newline then none
    else if r = backslash then
      match rs with
      | [] => none
      | c :: rs1 =>
        match simpleEscape c with
        | some b => (unquoteBodyAux fuel rs1).map (b :: ·)
        | none =>
          if c = 0x78 then
            match readDigits hexVal 16 2 0 rs1 with
            | none => none
            | some (v, rest) => (unquoteBodyAux fuel rest).map (toByte v :: ·)
          else if c = 0x75 then
            match readDigits hexVal 16 4 0 rs1 with
            | none => none
            | some (v, rest) =>
              if validRune v then (unquoteBodyAux fuel rest).map (encodeRune v ++ ·)
              else none
          else if c = 0x55 then
            match readDigits hexVal 16 8 0 rs1 with
            | none => none
            | some (v, rest) =>
              if validRune v then (unquoteBodyAux fuel rest).map (encodeRune v ++ ·)
              else none
          else
            match readDigits octVal 8 3 0 (c :: rs1) with
            | none => none
            | some (v, rest) =>
              if v ≤ 255 then (unquoteBodyAux fuel rest).map (toByte v :: ·)
              else none
    else (unquoteBodyAux fuel rs).map (encodeRune r ++ ·)

/-- The value denoted by the source text `src` when `src` is one valid Go
interpreted string literal, and `none` when it is not. -/
def goUnquote (src : GoString) : Option GoString :=
  match sourceRunes src with
  | none => none
  | some [] => none
  | some (q :: body) =>
    if q = dquote then unquoteBodyAux (body.length + 1) body else none

/-- The way the template embeds a value: the text between two double quotes. -/
def quoted (v : GoString) : GoString := toByte dquote :: (v ++ [toByte dquote])

/-! ## Go maps and `Get` (mimedescription.go) -/

/-- A Go `map[string]string` as an association list. -/
abbrev GoMap := List (GoString × GoString)

/-- The keys of a map. -/
def GoMap.keys (m : GoMap) : List GoString := m.map Prod.fst

/-- A well-formed map has no key twice. -/
def GoMap.WF (m : GoMap) : Prop := m.keys.Nodup

/-- The index expression `v, ok := m[k]`: the value stored under exactly `k`. -/
def GoMap.get? : GoMap → GoString → Option GoString
  | [], _ => none
  | (k', v) :: rest, k => if k' = k then some v else GoMap.get? rest k

/-- The assignment `m[k] = v`. -/
def GoMap.set : GoMap → GoString → GoString → GoMap
  | [], k, v => [(k, v)]
  | (k', v') :: rest, k, v =>
    if k' = k then (k, v) :: rest else (k', v') :: GoMap.set rest k v

/-- The function `Get`: `description, ok := mimeData[mimeType]`, the zero value
`""` and `false` when the key is missing. -/
def Get (mimeData : GoMap) (mimeType : GoString) : GoString × Bool :=
  match mimeData.get? mimeType with
  | some description => (description, true)
  | none => ([], false)

/-! ## `parseMimeXML` (cmd/generator/main.go, lines 80-107) -/

/-- The struct `MimeType`: the `type` attribute and the text of `comment`. -/
structure MimeType where
  /-- The field `Type`, from the attribute `type`; `""` when it is missing. -/
  Type_ : GoString
  /-- The field `Comment`, from the child element `comment`; `""` when missing. -/
  Comment : GoString
  deriving DecidableEq, Repr

/-- An error of `encoding/xml`, with its message. -/
abbrev XmlError := GoString

/-- The result of one call `decoder.Token()` of the loop before the end of the
input. -/
inductive TokenRead where
  /-- A start element with local name `nameLocal`; `decoded` is what
  `decoder.DecodeElement(&mt, &se)` gives for it. -/
  | startElement (nameLocal : GoString) (decoded : Except XmlError MimeType)
  /-- Any other token: end element, character data, comment, directive. -/
  | other
  /-- The call fails with an error that is not `io.EOF`. -/
  | fail (err : XmlError)

/-- The errors `parseMimeXML` returns, each wrapping its cause. -/
inductive ParseError where
  /-- The error "error decoding token: ...". -/
  | decodingToken (cause : XmlError)
  /-- The error "error decoding mime-type element: ...". -/
  | decodingElement (cause : XmlError)
  deriving DecidableEq, Repr

/-- The element name `"mime-type"`. -/
def mimeTypeName : GoString := lit "mime-type"

/-- The loop of `parseMimeXML` over the remaining token reads, `descriptions`
being the map built so far; the result is the pair `(map, error)` with `none`
for `nil`. -/
def parseLoop : List TokenRead → GoMap → Option GoMap × Option ParseError
  | [], descriptions => (some descriptions, none)
  | .fail err :: _, _ => (none, some (.decodingToken err))
  | .other :: rest, descriptions => parseLoop rest descriptions
  | .startElement nameLocal decoded :: rest, descriptions =>
    if nameLocal = mimeTypeName then
      match decoded with
      | .error err => (none, some (.decodingElement err))
      | .ok mt =>
        if mt.Comment ≠ [] then
          parseLoop rest (descriptions.set mt.Type_ (escapeString mt.Comment))
        else parseLoop rest descriptions
    else parseLoop rest descriptions

/-- The function `parseMimeXML`, starting from `make(map[string]string)`. -/
def parseMimeXML (reader : List TokenRead) : Option GoMap × Option ParseError :=
  parseLoop reader []

/-- The mime-type elements of a token stream, in document order: the start
elements named `mime-type` that decode. -/
def mimeElements : List TokenRead → List MimeType
  | [] => []
  | .startElement nameLocal (.ok mt) :: rest =>
    if nameLocal = mimeTypeName then mt :: mimeElements rest else mimeElements rest
  | _ :: rest => mimeElements rest

/-- A read that makes `parseMimeXML` fail: a token error, or a `mime-type`
start element that does not decode. -/
def TokenRead.fails : TokenRead → Bool
  | .fail _ => true
  | .startElement nameLocal (.error _) => decide (nameLocal = mimeTypeName)
  | _ => false

/-- The description of the last element of `els` that carries the identifier
`id` and a non-empty description. -/
def lastDescription (els : List MimeType) (id : GoString) : Option GoString :=
  ((els.reverse.find? (fun mt => decide (mt.Type_ = id) && decide (mt.Comment ≠ []))).map
    (fun mt => mt.Comment))

/-! ## `generateGoFile` and `main` (cmd/generator/main.go, lines 43-78, 109-145) -/

/-- The state of the output file `data.go`. -/
structure FileState where
  /-- The contents of the file; `none` when the file does not exist. -/
  content : Option GoString
  /-- The number of calls of `ioutil.WriteFile` on the file so far. -/
  writes : Nat
  deriving DecidableEq, Repr

/-- The response of `http.Get`. -/
structure Response where
  /-- The field `StatusCode`. -/
  StatusCode : Nat
  /-- The result of `ioutil.ReadAll(resp.Body)`. -/
  Body : Except GoString GoString

/-- The collaborators of a generation run. -/
structure Env where
  /-- The result of `http.Get(dbURL)`. -/
  httpGet : Except GoString Response
  /-- The token reads `xml.NewDecoder` gives for the fetched bytes. -/
  xmlTokens : GoString → List TokenRead
  /-- The value `time.Now().UTC().Format(time.RFC3339)`. -/
  timestamp : GoString
  /-- The result of `template.New("data").Parse(fileTemplate)`. -/
  templateParse : Except GoString Unit
  /-- The result of `tmpl.Execute(&buf, data)`: the rendered text. -/
  templateExecute : GoString → GoMap → Except GoString GoString
  /-- The function `format.Source`. -/
  formatSource : GoString → Except GoString GoString
  /-- The function `ioutil.WriteFile(outputPath, data, 0644)` on the contents
  of the file: the error, if any, and the contents it leaves. -/
  writeFile : GoString → Option GoString → Option GoString × Option GoString

/-- The errors `generateGoFile` returns, each wrapping its cause. -/
inductive GenError where
  /-- The error "failed to parse template: ...". -/
  | parseTemplate (cause : GoString)
  /-- The error "failed to execute template: ...". -/
  | executeTemplate (cause : GoString)
  /-- The error "failed to format generated code: ...". -/
  | formatCode (cause : GoString)
  /-- The error "failed to write output file: ...". -/
  | writeOutput (cause : GoString)
  deriving DecidableEq, Repr

/-- The function `generateGoFile`: the error it returns (`none` for `nil`) and
the state of the output file after it. -/
def generateGoFile (env : Env) (descriptions : GoMap) (fs : FileState) :
    Option GenError × FileState :=
  match env.templateParse with
  | .error err => (some (.parseTemplate err), fs)
  | .ok _ =>
    match env.templateExecute env.timestamp descriptions with
    | .error err => (some (.executeTemplate err), fs)
    | .ok buf =>
      match env.formatSource buf with
      | .error err => (some (.formatCode err), fs)
      | .ok formattedSource =>
        match env.writeFile formattedSource fs.content with
        | (some err, content) => (some (.writeOutput err), ⟨content, fs.writes + 1⟩)
        | (none, content) => (none, ⟨content, fs.writes + 1⟩)

/-- The calls of `log.Fatalf` in `main`: each ends the process with status 1. -/
inductive Fatal where
  /-- The message "Failed to fetch MIME database: ..." for an error of `http.Get`. -/
  | fetch (cause : GoString)
  /-- The message "Failed to fetch MIME database: received status code ...". -/
  | status (code : Nat)
  /-- The message "Failed to read response body: ...". -/
  | readBody (cause : GoString)
  /-- The message "Failed to parse MIME XML: ...". -/
  | parse (cause : ParseError)
  /-- The message "Failed to generate Go file: ...". -/
  | generate (cause : GenError)
  deriving DecidableEq, Repr

/-- The function `main`: how the run ends (`none` for a normal return) and the
state of the output file after it. -/
def main (env : Env) (fs : FileState) : Option Fatal × FileState :=
  match env.httpGet with
  | .error err => (some (.fetch err), fs)
  | .ok resp =>
    if resp.StatusCode ≠ 200 then (some (.status resp.StatusCode), fs)
    else
      match resp.Body with
      | .error err => (some (.readBody err), fs)
      | .ok xmlData =>
        match parseMimeXML (env.xmlTokens xmlData) with
        | (_, some err) => (some (.parse err), fs)
        | (descriptions, none) =>
          match generateGoFile env (descriptions.getD []) fs with
          | (some err, fs1) => (some (.generate err), fs1)
          | (none, fs1) => (none, fs1)

/-- All the stages before the write succeed: `src` is the formatted source
text that a run in `env` hands to `ioutil.WriteFile`. -/
def ReachesWrite (env : Env) (src : GoString) : Prop :=
  ∃ resp xmlData tbl buf,
    env.httpGet = .ok resp ∧ resp.StatusCode = 200 ∧ resp.Body = .ok xmlData ∧
    parseMimeXML (env.xmlTokens xmlData) = (some tbl, none) ∧
    env.templateParse = .ok () ∧
    env.templateExecute env.timestamp tbl = .ok buf ∧
    env.formatSource buf = .ok src

/-! ## Notions of the specification and sample inputs -/

/-- The last element of `els`, in document order, that carries the identifier
`id`, whatever its description. -/
def lastCarrying (els : List MimeType) (id : GoString) : Option MimeType :=
  els.reverse.find? (fun mt => decide (mt.Type_ = id))

/-- The read of a `mime-type` start element that decodes to the identifier `t`
and the description `c`. -/
def element (t c : GoString) : TokenRead :=
  .startElement mimeTypeName (.ok ⟨t, c⟩)

/-- Collaborators for the examples: the fetch answers 200 with the body
`body`, the decoder reads `tokens` from it, the template renders the timestamp
followed by the quoted pairs of the table, formatting succeeds when `formats`
is set, and the write stores the data. -/
def sampleEnv (body : GoString) (tokens : List TokenRead) (formats : Bool) : Env where
  httpGet := .ok ⟨200, .ok body⟩
  xmlTokens := fun _ => tokens
  timestamp := lit "2024-01-01T00:00:00Z"
  templateParse := .ok ()
  templateExecute := fun ts m => .ok (ts ++ m.flatMap (fun e => quoted e.1 ++ quoted e.2))
  formatSource := fun buf => if formats then .ok buf else .error (lit "string literal not terminated")
  writeFile := fun data _ => (none, some data)

/-! # Properties -/

/-! ## UTF-8: decoding what was encoded -/

theorem toByte_val (n : Nat) : (toByte n).val = n % 256 := rfl

theorem decodeRune_encode1 (r : Nat) (h1 : r ≤ 0x7F) (rest : GoString) :
    decodeRune (toByte r :: rest) = (r, 1) := by
  simp only [decodeRune, toByte_val]
  rw [if_pos (by omega)]
  simp only [Prod.mk.injEq, and_true]; omega

theorem decodeRune_encode2 (r : Nat) (h1 : ¬ r ≤ 0x7F) (h2 : r ≤ 0x7FF) (rest : GoString) :
    decodeRune (toByte (0xC0 + r / 64) :: toByte (0x80 + r % 64) :: rest) = (r, 2) := by
  simp only [decodeRune, toByte_val]
  rw [if_neg (by omega)]
  have : leadInfo ((0xC0 + r / 64) % 256) = some (2, 0x80, 0xBF) := by
    simp [leadInfo]; omega
  simp only [this]
  simp only [List.length_cons]
  rw [if_neg (by omega), if_neg (by omega), if_pos (by omega)]
  simp only [Prod.mk.injEq, and_true]; omega

theorem decodeRune_encode3 (r : Nat) (h2 : ¬ r ≤ 0x7FF) (h4 : r ≤ 0xFFFF)
    (h3 : ¬ (0xD800 ≤ r ∧ r ≤ 0xDFFF)) (rest : GoString) :
    decodeRune (toByte (0xE0 + r / 4096) :: toByte (0x80 + r / 64 % 64)
      :: toByte (0x80 + r % 64) :: rest) = (r, 3) := by
  simp only [decodeRune, toByte_val]
  rw [if_neg (by omega)]
  have hl : ∃ lo hi, leadInfo ((0xE0 + r / 4096) % 256) = some (3, lo, hi)
      ∧ lo ≤ (0x80 + r / 64 % 64) % 256 ∧ (0x80 + r / 64 % 64) % 256 ≤ hi := by
    simp only [leadInfo]
    split_ifs <;> first | omega | (refine ⟨_, _, rfl, ?_, ?_⟩ <;> omega)
  obtain ⟨lo, hi, hl, hlo, hhi⟩ := hl
  simp only [hl, isCont, toByte_val, List.length_cons]
  rw [if_neg (by omega), if_neg (by omega), if_neg (by omega), if_neg (by simp; omega),
    if_pos (by omega)]
  simp only [Prod.mk.injEq, and_true]; omega

theorem decodeRune_encode4 (r : Nat) (h4 : ¬ r ≤ 0xFFFF) (h5 : r ≤ 0x10FFFF)
    (rest : GoString) :
    decodeRune (toByte (0xF0 + r / 262144) :: toByte (0x80 + r / 4096 % 64)
      :: toByte (0x80 + r / 64 % 64) :: toByte (0x80 + r % 64) :: rest) = (r, 4) := by
  simp only [decodeRune, toByte_val]
  rw [if_neg (by omega)]
  have hl : ∃ lo hi, leadInfo ((0xF0 + r / 262144) % 256) = some (4, lo, hi)
      ∧ lo ≤ (0x80 + r / 4096 % 64) % 256 ∧ (0x80 + r / 4096 % 64) % 256 ≤ hi := by
    simp only [leadInfo]
    split_ifs <;> first | omega | (refine ⟨_, _, rfl, ?_, ?_⟩ <;> omega)
  obtain ⟨lo, hi, hl, hlo, hhi⟩ := hl
  simp only [hl, isCont, toByte_val, List.length_cons]
  rw [if_neg (by omega), if_neg (by omega), if_neg (by omega), if_neg (by simp; omega),
    if_neg (by omega), if_neg (by simp; omega)]
  simp only [Prod.mk.injEq, and_true]; omega

/-- Decoding the encoding of a Unicode scalar value gives the value back and
consumes exactly its encoding. -/
theorem decodeRune_encodeRune (r : Nat) (h : validRune r = true) (rest : GoString) :
    decodeRune (encodeRune r ++ rest) = (r, (encodeRune r).length) := by
  simp only [validRune, MaxRune, Bool.or_eq_true, Bool.and_eq_true, decide_eq_true_eq] at h
  unfold encodeRune
  by_cases h1 : r ≤ 0x7F
  · simp only [h1, if_true, List.cons_append, List.nil_append, List.length_singleton]
    exact decodeRune_encode1 r h1 rest
  · simp only [h1, if_false]
    by_cases h2 : r ≤ 0x7FF
    · simp only [h2, if_true, List.cons_append, List.nil_append, List.length_cons,
        List.length_nil]
      exact decodeRune_encode2 r h1 h2 rest
    · have h3 : ¬ (r > MaxRune ∨ (0xD800 ≤ r ∧ r ≤ 0xDFFF)) := by
        simp only [MaxRune]; omega
      simp only [h2, h3, if_false]
      by_cases h4 : r ≤ 0xFFFF
      · simp only [h4, if_true, List.cons_append, List.nil_append, List.length_cons,
          List.length_nil]
        exact decodeRune_encode3 r h2 h4 (by omega) rest
      · simp only [h4, if_false, List.cons_append, List.nil_append, List.length_cons,
          List.length_nil]
        exact decodeRune_encode4 r h4 (by omega) rest

theorem encodeRune_ne_nil (r : Nat) : encodeRune r ≠ [] := by
  unfold encodeRune
  split_ifs <;> simp

theorem decodeRune_size_pos (b : Byte) (rest : GoString) :
    1 ≤ (decodeRune (b :: rest)).2 := by
  simp only [decodeRune]
  repeat' split
  all_goals simp

/-- More fuel than the length of the string changes nothing: the loop of
`range` ends by reaching the end of the string. -/
theorem rangeRunesAux_fuel (fuel1 : Nat) :
    ∀ (fuel2 : Nat) (s : GoString), s.length ≤ fuel1 → s.length ≤ fuel2 →
      rangeRunesAux fuel1 s = rangeRunesAux fuel2 s := by
  induction fuel1 with
  | zero =>
    intro fuel2 s h1 _
    have : s = [] := List.length_eq_zero.mp (by omega)
    subst this
    cases fuel2 <;> rfl
  | succ n ih =>
    intro fuel2 s h1 h2
    cases s with
    | nil => cases fuel2 <;> rfl
    | cons b rest =>
      cases fuel2 with
      | zero => simp at h2
      | succ m =>
        simp only [rangeRunesAux]
        have hp := decodeRune_size_pos b rest
        have hl : ((b :: rest).drop (decodeRune (b :: rest)).2).length ≤ rest.length := by
          simp only [List.length_drop, List.length_cons]; omega
        simp only [List.length_cons] at h1 h2
        rw [ih m _ (by omega) (by omega)]

theorem rangeRunes_nil : rangeRunes [] = [] := rfl

theorem rangeRunes_cons (b : Byte) (rest : GoString) :
    rangeRunes (b :: rest) = (decodeRune (b :: rest)).1
      :: rangeRunes ((b :: rest).drop (decodeRune (b :: rest)).2) := by
  have hp := decodeRune_size_pos b rest
  simp only [rangeRunes, List.length_cons, rangeRunesAux]
  congr 1
  apply rangeRunesAux_fuel
  · simp only [List.length_drop, List.length_cons]; omega
  · exact le_refl _

theorem rangeRunes_encodeRune_append (r : Nat) (h : validRune r = true) (rest : GoString) :
    rangeRunes (encodeRune r ++ rest) = r :: rangeRunes rest := by
  have hne := encodeRune_ne_nil r
  cases he : encodeRune r with
  | nil => exact absurd he hne
  | cons b tl =>
    have hd := decodeRune_encodeRune r h rest
    rw [he] at hd
    rw [List.cons_append, rangeRunes_cons, ← List.cons_append, hd]
    simp

/-- The loop of `range` over the encoding of Unicode scalar values yields them. -/
theorem rangeRunes_encodeRunes (rs : List Nat) (h : ∀ r ∈ rs, validRune r = true) :
    rangeRunes (encodeRunes rs) = rs := by
  induction rs with
  | nil => rfl
  | cons r rs ih =>
    have h1 : validRune r = true := h r (List.mem_cons_self _ _)
    have h2 : ∀ x ∈ rs, validRune x = true := fun x hx => h x (List.mem_cons_of_mem _ hx)
    show rangeRunes (encodeRune r ++ encodeRunes rs) = r :: rs
    rw [rangeRunes_encodeRune_append r h1, ih h2]

theorem rangeRunes_ne_nil (s : GoString) (h : s ≠ []) : rangeRunes s ≠ [] := by
  cases s with
  | nil => exact absurd rfl h
  | cons b rest => rw [rangeRunes_cons]; simp

theorem validRune_toNat (c : Char) : validRune c.toNat = true := by
  have h := c.valid
  simp only [validRune, MaxRune, Bool.or_eq_true, Bool.and_eq_true, decide_eq_true_eq]
  simp only [UInt32.isValidChar, Nat.isValidChar] at h
  show c.val.toNat < 0xD800 ∨ (0xE000 ≤ c.val.toNat ∧ c.val.toNat ≤ 0x10FFFF)
  omega

/-! ## `escapeString` -/

theorem foldl_escapeStep (rs : List Nat) :
    ∀ acc : GoString, rs.foldl escapeStep acc = acc ++ rs.flatMap escapeImage := by
  induction rs with
  | nil => intro acc; simp
  | cons r rs ih =>
    intro acc
    rw [List.foldl_cons, ih, List.flatMap_cons, ← List.append_assoc]
    congr 1
    unfold escapeStep escapeImage
    split_ifs <;> rfl

theorem escapeString_eq_flatMap (s : GoString) :
    escapeString s = (rangeRunes s).flatMap escapeImage := by
  unfold escapeString
  rw [foldl_escapeStep]; rfl

theorem escapeImage_ne_nil (r : Nat) : escapeImage r ≠ [] := by
  unfold escapeImage
  split_ifs
  · simp
  · simp
  · exact encodeRune_ne_nil r

theorem escapeString_ne_nil (s : GoString) (h : s ≠ []) : escapeString s ≠ [] := by
  rw [escapeString_eq_flatMap]
  cases hr : rangeRunes s with
  | nil => exact absurd hr (rangeRunes_ne_nil s h)
  | cons r rs =>
    rw [List.flatMap_cons]
    intro habs
    exact escapeImage_ne_nil r (List.append_eq_nil.mp habs).1

theorem escapeString_nil : escapeString [] = [] := rfl

theorem mem_encodeRunes_of_ascii (rs : List Nat) (r : Nat) (hr : r ≤ 0x7F) (hm : r ∈ rs) :
    toByte r ∈ encodeRunes rs := by
  unfold encodeRunes
  rw [List.mem_flatMap]
  refine ⟨r, hm, ?_⟩
  unfold encodeRune
  simp [hr]

/-- A string of valid UTF-8 without the bytes of the backslash and of the
double quote is left as it is. -/
theorem escapeString_encodeRunes_plain (rs : List Nat) (h : ∀ r ∈ rs, validRune r = true)
    (hb : toByte backslash ∉ encodeRunes rs) (hq : toByte dquote ∉ encodeRunes rs) :
    escapeString (encodeRunes rs) = encodeRunes rs := by
  rw [escapeString_eq_flatMap, rangeRunes_encodeRunes rs h]
  unfold encodeRunes
  apply List.flatMap_congr
  intro r hr
  unfold escapeImage
  have h1 : r ≠ backslash := by
    intro he; subst he
    exact hb (mem_encodeRunes_of_ascii rs backslash (by decide) hr)
  have h2 : r ≠ dquote := by
    intro he; subst he
    exact hq (mem_encodeRunes_of_ascii rs dquote (by decide) hr)
  simp [h1, h2]

/-! ## Go maps -/

theorem GoMap.get?_set_self (m : GoMap) (k v : GoString) : (m.set k v).get? k = some v := by
  induction m with
  | nil => simp [GoMap.set, GoMap.get?]
  | cons e rest ih =>
    obtain ⟨k', v'⟩ := e
    by_cases h : k' = k
    · simp [GoMap.set, GoMap.get?, h]
    · simp [GoMap.set, GoMap.get?, h, ih]

theorem GoMap.get?_set_ne (m : GoMap) (k v k1 : GoString) (hne : k1 ≠ k) :
    (m.set k v).get? k1 = m.get? k1 := by
  induction m with
  | nil => simp [GoMap.set, GoMap.get?, Ne.symm hne]
  | cons e rest ih =>
    obtain ⟨k', v'⟩ := e
    by_cases h : k' = k
    · subst h
      simp [GoMap.set, GoMap.get?, Ne.symm hne]
    · simp only [GoMap.set, h, if_false, GoMap.get?, ih]

theorem GoMap.mem_keys_set (m : GoMap) (k v k1 : GoString) :
    k1 ∈ (m.set k v).keys ↔ k1 = k ∨ k1 ∈ m.keys := by
  induction m with
  | nil => simp [GoMap.set, GoMap.keys]
  | cons e rest ih =>
    obtain ⟨k', v'⟩ := e
    by_cases h : k' = k
    · subst h
      simp [GoMap.set, GoMap.keys]
    · simp only [GoMap.keys] at ih
      simp only [GoMap.set, h, if_false, GoMap.keys, List.map_cons, List.mem_cons, ih]
      tauto

theorem GoMap.set_WF (m : GoMap) (k v : GoString) (h : m.WF) : (m.set k v).WF := by
  induction m with
  | nil => simp [GoMap.set, GoMap.WF, GoMap.keys]
  | cons e rest ih =>
    obtain ⟨k', v'⟩ := e
    simp only [GoMap.WF, GoMap.keys, List.map_cons, List.nodup_cons] at h
    by_cases hk : k' = k
    · subst hk
      simp only [GoMap.set, if_true, GoMap.WF, GoMap.keys, List.map_cons, List.nodup_cons]
      exact h
    · simp only [GoMap.set, hk, if_false, GoMap.WF, GoMap.keys, List.map_cons,
        List.nodup_cons]
      refine ⟨?_, ih h.2⟩
      intro hmem
      have := (GoMap.mem_keys_set rest k v k').mp hmem
      rcases this with h1 | h1
      · exact hk h1
      · exact h.1 h1

theorem GoMap.get?_eq_none_iff (m : GoMap) (k : GoString) :
    m.get? k = none ↔ k ∉ m.keys := by
  induction m with
  | nil => simp [GoMap.get?, GoMap.keys]
  | cons e rest ih =>
    obtain ⟨k', v'⟩ := e
    simp only [GoMap.keys] at ih
    by_cases h : k' = k
    · simp [GoMap.get?, GoMap.keys, h]
    · simp only [GoMap.get?, h, if_false, ih, GoMap.keys, List.map_cons, List.mem_cons,
        not_or]
      constructor
      · intro h1; exact ⟨fun h2 => h h2.symm, h1⟩
      · intro h1; exact h1.2

theorem GoMap.mem_of_get? (m : GoMap) (k v : GoString) (h : m.get? k = some v) :
    (k, v) ∈ m := by
  induction m with
  | nil => simp [GoMap.get?] at h
  | cons e rest ih =>
    obtain ⟨k', v'⟩ := e
    by_cases hk : k' = k
    · simp only [GoMap.get?, hk, if_true, Option.some.injEq] at h
      subst hk; subst h
      exact List.mem_cons_self _ _
    · simp only [GoMap.get?, hk, if_false] at h
      exact List.mem_cons_of_mem _ (ih h)

theorem GoMap.get?_of_mem (m : GoMap) (hwf : m.WF) (k v : GoString) (h : (k, v) ∈ m) :
    m.get? k = some v := by
  induction m with
  | nil => simp at h
  | cons e rest ih =>
    obtain ⟨k', v'⟩ := e
    simp only [GoMap.WF, GoMap.keys, List.map_cons, List.nodup_cons] at hwf
    rcases List.mem_cons.mp h with h1 | h1
    · simp only [Prod.mk.injEq] at h1
      simp [GoMap.get?, h1.1, h1.2]
    · have hk : k' ≠ k := by
        intro he
        apply hwf.1
        rw [he]
        exact List.mem_map.mpr ⟨(k, v), h1, rfl⟩
      simp only [GoMap.get?, hk, if_false]
      exact ih hwf.2 h1

theorem GoMap.get?_isSome_of_mem_keys (m : GoMap) (k : GoString) (h : k ∈ m.keys) :
    ∃ v, m.get? k = some v := by
  cases hg : m.get? k with
  | none => exact absurd h ((GoMap.get?_eq_none_iff m k).mp hg)
  | some v => exact ⟨v, rfl⟩

/-! ## `parseMimeXML` -/

theorem lastDescription_nil (id : GoString) : lastDescription [] id = none := rfl

theorem lastDescription_cons (mt : MimeType) (els : List MimeType) (id : GoString) :
    lastDescription (mt :: els) id =
      match lastDescription els id with
      | some c => some c
      | none => if mt.Type_ = id ∧ mt.Comment ≠ [] then some mt.Comment else none := by
  unfold lastDescription
  rw [List.reverse_cons, List.find?_append]
  cases hf : els.reverse.find?
      (fun mt => decide (mt.Type_ = id) && decide (mt.Comment ≠ [])) with
  | some x => simp
  | none =>
    simp only [Option.none_or, List.find?_cons, List.find?_nil]
    by_cases hp : mt.Type_ = id ∧ mt.Comment ≠ []
    · have hd : (decide (mt.Type_ = id) && decide (mt.Comment ≠ [])) = true := by
        simpa using hp
      rw [hd, if_pos hp]; rfl
    · have hd : (decide (mt.Type_ = id) && decide (mt.Comment ≠ [])) = false := by
        simpa using hp
      rw [hd, if_neg hp]; rfl

/-- The table after the loop, read at any identifier: the escaped last
non-empty description among the elements still to come, or else what the
table held before. -/
theorem parseLoop_get? (reader : List TokenRead) :
    ∀ (d tbl : GoMap), parseLoop reader d = (some tbl, none) → ∀ id : GoString,
      tbl.get? id =
        match lastDescription (mimeElements reader) id with
        | some c => some (escapeString c)
        | none => d.get? id := by
  induction reader with
  | nil =>
    intro d tbl h id
    simp only [parseLoop, Prod.mk.injEq, Option.some.injEq, and_true] at h
    subst h
    simp [mimeElements, lastDescription_nil]
  | cons t rest ih =>
    intro d tbl h id
    cases t with
    | fail err => simp [parseLoop] at h
    | other =>
      simp only [parseLoop] at h
      simpa [mimeElements] using ih d tbl h id
    | startElement nameLocal decoded =>
      by_cases hn : nameLocal = mimeTypeName
      · cases decoded with
        | error err => simp [parseLoop, hn] at h
        | ok mt =>
          simp only [mimeElements, hn, if_true]
          rw [lastDescription_cons]
          by_cases hc : mt.Comment = []
          · simp only [parseLoop, hn, if_true, hc, ne_eq, not_true_eq_false, if_false] at h
            have := ih d tbl h id
            rw [this]
            cases lastDescription (mimeElements rest) id <;> simp [hc]
          · simp only [parseLoop, hn, if_true, ne_eq, hc, not_false_eq_true] at h
            have := ih _ tbl h id
            rw [this]
            cases lastDescription (mimeElements rest) id with
            | some c => rfl
            | none =>
              by_cases hid : mt.Type_ = id
              · subst hid
                simp [hc, GoMap.get?_set_self]
              · simp only [hid, false_and, if_false]
                exact GoMap.get?_set_ne d _ _ id (fun h => hid h.symm)
      · simp only [parseLoop, hn, if_false] at h
        have := ih d tbl h id
        rw [this]
        cases decoded <;> simp [mimeElements, hn]

theorem parseLoop_WF (reader : List TokenRead) :
    ∀ (d tbl : GoMap), parseLoop reader d = (some tbl, none) → d.WF → tbl.WF := by
  induction reader with
  | nil =>
    intro d tbl h hwf
    simp only [parseLoop, Prod.mk.injEq, Option.some.injEq, and_true] at h
    subst h; exact hwf
  | cons t rest ih =>
    intro d tbl h hwf
    cases t with
    | fail err => simp [parseLoop] at h
    | other => exact ih d tbl (by simpa [parseLoop] using h) hwf
    | startElement nameLocal decoded =>
      by_cases hn : nameLocal = mimeTypeName
      · cases decoded with
        | error err => simp [parseLoop, hn] at h
        | ok mt =>
          by_cases hc : mt.Comment = []
          · simp only [parseLoop, hn, if_true, hc, ne_eq, not_true_eq_false, if_false] at h
            exact ih d tbl h hwf
          · simp only [parseLoop, hn, if_true, ne_eq, hc, not_false_eq_true] at h
            exact ih _ tbl h (GoMap.set_WF d _ _ hwf)
      · simp only [parseLoop, hn, if_false] at h
        exact ih d tbl h hwf

theorem parseLoop_fails (reader : List TokenRead) :
    ∀ d : GoMap, (∃ t ∈ reader, t.fails = true) →
      ∃ err, parseLoop reader d = (none, some err) := by
  induction reader with
  | nil => intro d h; simp at h
  | cons t rest ih =>
    intro d h
    cases t with
    | fail err => exact ⟨_, rfl⟩
    | other =>
      simp only [parseLoop]
      apply ih
      simpa [TokenRead.fails] using h
    | startElement nameLocal decoded =>
      by_cases hn : nameLocal = mimeTypeName
      · cases decoded with
        | error err => exact ⟨.decodingElement err, by simp [parseLoop, hn]⟩
        | ok mt =>
          have h1 : ∃ t ∈ rest, t.fails = true := by simpa [TokenRead.fails] using h
          simp only [parseLoop, hn, if_true]
          split_ifs
          · exact ih _ h1
          · exact ih _ h1
      · have h1 : ∃ t ∈ rest, t.fails = true := by
          cases decoded <;> simpa [TokenRead.fails, hn] using h
        simp only [parseLoop, hn, if_false]
        exact ih _ h1

theorem parseLoop_succeeds (reader : List TokenRead) :
    ∀ d : GoMap, (∀ t ∈ reader, t.fails = false) →
      ∃ tbl, parseLoop reader d = (some tbl, none) := by
  induction reader with
  | nil => intro d _; exact ⟨d, rfl⟩
  | cons t rest ih =>
    intro d h
    have h1 : ∀ t ∈ rest, t.fails = false := fun x hx => h x (List.mem_cons_of_mem _ hx)
    have h0 := h t (List.mem_cons_self _ _)
    cases t with
    | fail err => simp [TokenRead.fails] at h0
    | other => exact ih d h1
    | startElement nameLocal decoded =>
      by_cases hn : nameLocal = mimeTypeName
      · cases decoded with
        | error err => simp [TokenRead.fails, hn] at h0
        | ok mt =>
          simp only [parseLoop, hn, if_true]
          split_ifs
          · exact ih _ h1
          · exact ih _ h1
      · simp only [parseLoop, hn, if_false]
        exact ih _ h1

theorem lastDescription_some (els : List MimeType) (id c : GoString)
    (h : lastDescription els id = some c) :
    ∃ mt ∈ els, mt.Type_ = id ∧ mt.Comment ≠ [] ∧ c = mt.Comment := by
  unfold lastDescription at h
  cases hf : els.reverse.find?
      (fun mt => decide (mt.Type_ = id) && decide (mt.Comment ≠ [])) with
  | none => rw [hf] at h; simp at h
  | some x =>
    rw [hf] at h
    simp only [Option.map_some', Option.some.injEq] at h
    have hp := List.find?_some hf
    have hm := List.mem_of_find?_eq_some hf
    simp only [Bool.and_eq_true, decide_eq_true_eq] at hp
    exact ⟨x, List.mem_reverse.mp hm, hp.1, hp.2, h.symm⟩

theorem lastDescription_none (els : List MimeType) (id : GoString) :
    lastDescription els id = none ↔ ∀ mt ∈ els, mt.Type_ = id → mt.Comment = [] := by
  unfold lastDescription
  rw [Option.map_eq_none', List.find?_eq_none]
  simp only [List.mem_reverse, Bool.and_eq_true, decide_eq_true_eq, not_and, ne_eq,
    not_not]

theorem parseMimeXML_get? (reader : List TokenRead) (tbl : GoMap)
    (h : parseMimeXML reader = (some tbl, none)) (id : GoString) :
    tbl.get? id = (lastDescription (mimeElements reader) id).map escapeString := by
  have := parseLoop_get? reader [] tbl h id
  rw [this]
  cases lastDescription (mimeElements reader) id <;> rfl

theorem parseMimeXML_WF (reader : List TokenRead) (tbl : GoMap)
    (h : parseMimeXML reader = (some tbl, none)) : tbl.WF :=
  parseLoop_WF reader [] tbl h List.nodup_nil

theorem parseMimeXML_get?_some (reader : List TokenRead) (tbl : GoMap)
    (h : parseMimeXML reader = (some tbl, none)) (id v : GoString)
    (hv : tbl.get? id = some v) :
    ∃ mt ∈ mimeElements reader, mt.Type_ = id ∧ mt.Comment ≠ [] ∧
      v = escapeString mt.Comment := by
  rw [parseMimeXML_get? reader tbl h id] at hv
  cases hl : lastDescription (mimeElements reader) id with
  | none => rw [hl] at hv; simp at hv
  | some c =>
    rw [hl] at hv
    simp only [Option.map_some', Option.some.injEq] at hv
    obtain ⟨mt, hm, h1, h2, h3⟩ := lastDescription_some _ _ _ hl
    exact ⟨mt, hm, h1, h2, by rw [← hv, h3]⟩

theorem parseLoop_prefix (pre : List TokenRead) (h : ∀ t ∈ pre, t.fails = false) :
    ∀ (rest : List TokenRead) (d : GoMap),
      ∃ d1, parseLoop (pre ++ rest) d = parseLoop rest d1 := by
  induction pre with
  | nil => intro rest d; exact ⟨d, rfl⟩
  | cons t pre ih =>
    intro rest d
    have h1 : ∀ t ∈ pre, t.fails = false := fun x hx => h x (List.mem_cons_of_mem _ hx)
    have h0 := h t (List.mem_cons_self _ _)
    cases t with
    | fail err => simp [TokenRead.fails] at h0
    | other => exact ih h1 rest d
    | startElement nameLocal decoded =>
      by_cases hn : nameLocal = mimeTypeName
      · cases decoded with
        | error err => simp [TokenRead.fails, hn] at h0
        | ok mt =>
          simp only [List.cons_append, parseLoop, hn, if_true]
          split_ifs
          · exact ih h1 rest _
          · exact ih h1 rest _
      · simp only [List.cons_append, parseLoop, hn, if_false]
        exact ih h1 rest _

theorem GoMap.entries_le_one (m : GoMap) (hwf : m.WF) (id : GoString) :
    (m.filter (fun e => decide (e.1 = id))).length ≤ 1 := by
  induction m with
  | nil => simp
  | cons e rest ih =>
    simp only [GoMap.WF, GoMap.keys, List.map_cons, List.nodup_cons] at hwf
    by_cases he : e.1 = id
    · have hnone : rest.filter (fun e => decide (e.1 = id)) = [] := by
        rw [List.filter_eq_nil_iff]
        intro x hx hdx
        simp only [decide_eq_true_eq] at hdx
        apply hwf.1
        rw [he, ← hdx]
        exact List.mem_map.mpr ⟨x, hx, rfl⟩
      simp [List.filter_cons, he, hnone]
    · simp only [List.filter_cons, he, decide_False, Bool.false_eq_true, if_false]
      exact ih hwf.2

theorem parseMimeXML_result_cases (reader : List TokenRead) :
    (∃ tbl, parseMimeXML reader = (some tbl, none)) ∨
      (∃ err, parseMimeXML reader = (none, some err)) := by
  by_cases hf : ∃ t ∈ reader, t.fails = true
  · exact Or.inr (parseLoop_fails reader [] hf)
  · refine Or.inl (parseLoop_succeeds reader [] ?_)
    intro t ht
    cases hft : t.fails with
    | false => rfl
    | true => exact absurd ⟨t, ht, hft⟩ hf

/-! ## The escaped text as a Go string literal -/

theorem sourceRunesAux_fuel (fuel1 : Nat) :
    ∀ (fuel2 : Nat) (s : GoString), s.length ≤ fuel1 → s.length ≤ fuel2 →
      sourceRunesAux fuel1 s = sourceRunesAux fuel2 s := by
  induction fuel1 with
  | zero =>
    intro fuel2 s h1 _
    have : s = [] := List.length_eq_zero.mp (by omega)
    subst this
    cases fuel2 <;> rfl
  | succ n ih =>
    intro fuel2 s h1 h2
    cases s with
    | nil => cases fuel2 <;> rfl
    | cons b rest =>
      cases fuel2 with
      | zero => simp at h2
      | succ m =>
        simp only [sourceRunesAux]
        have hp := decodeRune_size_pos b rest
        have hl : ((b :: rest).drop (decodeRune (b :: rest)).2).length ≤ rest.length := by
          simp only [List.length_drop, List.length_cons]; omega
        simp only [List.length_cons] at h1 h2
        rw [ih m _ (by omega) (by omega)]

theorem sourceRunes_cons (b : Byte) (rest : GoString) :
    sourceRunes (b :: rest) =
      if ((decodeRune (b :: rest)).1 = RuneError ∧ (decodeRune (b :: rest)).2 = 1)
          ∨ (decodeRune (b :: rest)).1 = 0 ∨ (decodeRune (b :: rest)).1 = bom then none
      else (sourceRunes ((b :: rest).drop (decodeRune (b :: rest)).2)).map
        ((decodeRune (b :: rest)).1 :: ·) := by
  have hp := decodeRune_size_pos b rest
  simp only [sourceRunes, List.length_cons, sourceRunesAux]
  split_ifs
  · rfl
  · congr 1
    apply sourceRunesAux_fuel
    · simp only [List.length_drop, List.length_cons]; omega
    · exact le_refl _

/-- A character the scanner of Go accepts inside a literal: a Unicode scalar
value other than NUL and the byte order mark. -/
theorem sourceRunes_encodeRune_append (r : Nat) (h : validRune r = true) (h0 : r ≠ 0)
    (hb : r ≠ bom) (rest : GoString) :
    sourceRunes (encodeRune r ++ rest) = (sourceRunes rest).map (r :: ·) := by
  have hne := encodeRune_ne_nil r
  cases he : encodeRune r with
  | nil => exact absurd he hne
  | cons b tl =>
    have hd := decodeRune_encodeRune r h rest
    rw [he] at hd
    rw [List.cons_append, sourceRunes_cons, ← List.cons_append, hd]
    have hsz : ¬ (r = RuneError ∧ (b :: tl).length = 1) := by
      rintro ⟨h1, h2⟩
      subst h1
      rw [← he] at h2
      revert h2
      decide
    rw [if_neg (by simp only [not_or]; exact ⟨hsz, h0, hb⟩)]
    simp

theorem sourceRunes_encodeRunes (rs : List Nat)
    (h : ∀ r ∈ rs, validRune r = true ∧ r ≠ 0 ∧ r ≠ bom) :
    sourceRunes (encodeRunes rs) = some rs := by
  induction rs with
  | nil => rfl
  | cons r rs ih =>
    obtain ⟨h1, h2, h3⟩ := h r (List.mem_cons_self _ _)
    show sourceRunes (encodeRune r ++ encodeRunes rs) = some (r :: rs)
    rw [sourceRunes_encodeRune_append r h1 h2 h3,
      ih (fun x hx => h x (List.mem_cons_of_mem _ hx))]
    rfl

theorem escapeImage_eq_encodeRunes (r : Nat) :
    escapeImage r = encodeRunes (escapeRunes r) := by
  unfold escapeImage escapeRunes
  split_ifs
  · rfl
  · rfl
  · simp [encodeRunes]

theorem encodeRunes_append (xs ys : List Nat) :
    encodeRunes (xs ++ ys) = encodeRunes xs ++ encodeRunes ys := by
  simp [encodeRunes]

theorem flatMap_escapeImage (rs : List Nat) :
    rs.flatMap escapeImage = encodeRunes (rs.flatMap escapeRunes) := by
  induction rs with
  | nil => rfl
  | cons r rs ih =>
    rw [List.flatMap_cons, List.flatMap_cons, encodeRunes_append, ih,
      escapeImage_eq_encodeRunes]

theorem quoted_escapeString (rs : List Nat) (h : ∀ r ∈ rs, validRune r = true) :
    quoted (escapeString (encodeRunes rs))
      = encodeRunes (dquote :: (rs.flatMap escapeRunes ++ [dquote])) := by
  rw [escapeString_eq_flatMap, rangeRunes_encodeRunes rs h, flatMap_escapeImage]
  show _ = encodeRune dquote ++ encodeRunes (rs.flatMap escapeRunes ++ [dquote])
  rw [encodeRunes_append]
  rfl

theorem unquoteBodyAux_plain (fuel r : Nat) (rs : List Nat) (h1 : r ≠ dquote)
    (h2 : r ≠ newline) (h3 : r ≠ backslash) :
    unquoteBodyAux (fuel + 1) (r :: rs)
      = (unquoteBodyAux fuel rs).map (encodeRune r ++ ·) := by
  cases rs <;> simp [unquoteBodyAux, h1, h2, h3]

theorem unquoteBodyAux_escaped (rs : List Nat) (hnl : ∀ r ∈ rs, r ≠ newline) :
    ∀ fuel, (rs.flatMap escapeRunes).length + 1 ≤ fuel →
      unquoteBodyAux fuel (rs.flatMap escapeRunes ++ [dquote]) = some (encodeRunes rs) := by
  induction rs with
  | nil =>
    intro fuel hf
    cases fuel with
    | zero => simp at hf
    | succ n => simp [unquoteBodyAux, encodeRunes]
  | cons r rs ih =>
    intro fuel hf
    have hnl1 : ∀ x ∈ rs, x ≠ newline := fun x hx => hnl x (List.mem_cons_of_mem _ hx)
    have hr : r ≠ newline := hnl r (List.mem_cons_self _ _)
    rw [List.flatMap_cons, List.length_append] at hf
    cases fuel with
    | zero => simp at hf
    | succ n =>
      show unquoteBodyAux (n + 1) (escapeRunes r ++ rs.flatMap escapeRunes ++ [dquote])
        = some (encodeRune r ++ encodeRunes rs)
      by_cases hbs : r = backslash
      · subst hbs
        have hlen : (escapeRunes backslash).length = 2 := rfl
        have hs : simpleEscape backslash = some (toByte backslash) := rfl
        have : escapeRunes backslash ++ rs.flatMap escapeRunes ++ [dquote]
            = backslash :: backslash :: (rs.flatMap escapeRunes ++ [dquote]) := rfl
        rw [this, unquoteBodyAux, if_neg (by decide), if_neg (by decide), if_pos rfl]
        simp only [hs]
        rw [ih hnl1 n (by omega)]
        rfl
      · by_cases hdq : r = dquote
        · subst hdq
          have hlen : (escapeRunes dquote).length = 2 := rfl
          have hs : simpleEscape dquote = some (toByte dquote) := rfl
          have : escapeRunes dquote ++ rs.flatMap escapeRunes ++ [dquote]
              = backslash :: dquote :: (rs.flatMap escapeRunes ++ [dquote]) := rfl
          rw [this, unquoteBodyAux, if_neg (by decide), if_neg (by decide), if_pos rfl]
          simp only [hs]
          rw [ih hnl1 n (by omega)]
          rfl
        · have he : escapeRunes r = [r] := by simp [escapeRunes, hbs, hdq]
          rw [he] at hf ⊢
          simp only [List.length_singleton] at hf
          rw [List.singleton_append, List.cons_append,
            unquoteBodyAux_plain n r _ hdq hr hbs, ih hnl1 n (by omega)]
          rfl

theorem unquoteBodyAux_newline (rs : List Nat) (hn : newline ∈ rs) :
    ∀ fuel, unquoteBodyAux fuel (rs.flatMap escapeRunes ++ [dquote]) = none := by
  induction rs with
  | nil => simp at hn
  | cons r rs ih =>
    intro fuel
    cases fuel with
    | zero => rfl
    | succ n =>
      rw [List.flatMap_cons]
      by_cases hbs : r = backslash
      · subst hbs
        have hrest : newline ∈ rs := by
          rcases List.mem_cons.mp hn with h | h
          · exact absurd h (by decide)
          · exact h
        have hs : simpleEscape backslash = some (toByte backslash) := rfl
        have : escapeRunes backslash ++ rs.flatMap escapeRunes ++ [dquote]
            = backslash :: backslash :: (rs.flatMap escapeRunes ++ [dquote]) := rfl
        rw [this, unquoteBodyAux, if_neg (by decide), if_neg (by decide), if_pos rfl]
        simp only [hs]
        rw [ih hrest n]
        rfl
      · by_cases hdq : r = dquote
        · subst hdq
          have hrest : newline ∈ rs := by
            rcases List.mem_cons.mp hn with h | h
            · exact absurd h (by decide)
            · exact h
          have hs : simpleEscape dquote = some (toByte dquote) := rfl
          have : escapeRunes dquote ++ rs.flatMap escapeRunes ++ [dquote]
              = backslash :: dquote :: (rs.flatMap escapeRunes ++ [dquote]) := rfl
          rw [this, unquoteBodyAux, if_neg (by decide), if_neg (by decide), if_pos rfl]
          simp only [hs]
          rw [ih hrest n]
          rfl
        · have he : escapeRunes r = [r] := by simp [escapeRunes, hbs, hdq]
          rw [he, List.singleton_append, List.cons_append]
          by_cases hr : r = newline
          · subst hr
            cases hrs : rs.flatMap escapeRunes ++ [dquote] <;>
              simp [unquoteBodyAux, show ¬ newline = dquote from by decide]
          · have hrest : newline ∈ rs := by
              rcases List.mem_cons.mp hn with h | h
              · exact absurd h.symm hr
              · exact h
            rw [unquoteBodyAux_plain n r _ hdq hr hbs, ih hrest n]
            rfl

theorem readDigits_length (digit : Nat → Option Nat) (base n : Nat) :
    ∀ (acc : Nat) (rs : List Nat) (v : Nat) (rest : List Nat),
      readDigits digit base n acc rs = some (v, rest) → rest.length ≤ rs.length := by
  induction n with
  | zero =>
    intro acc rs v rest h
    simp only [readDigits, Option.some.injEq, Prod.mk.injEq] at h
    rw [h.2]
  | succ k ih =>
    intro acc rs v rest h
    cases rs with
    | nil => simp [readDigits] at h
    | cons r rs =>
      simp only [readDigits] at h
      cases hd : digit r with
      | none => rw [hd] at h; simp at h
      | some d =>
        rw [hd] at h
        have := ih _ _ _ _ h
        simp only [List.length_cons]; omega

/-- More fuel than the length of the text changes nothing in the value of a
literal: `none` always reports an invalid literal. -/
theorem unquoteBodyAux_fuel (fuel1 : Nat) :
    ∀ (fuel2 : Nat) (rs : List Nat), rs.length < fuel1 → rs.length < fuel2 →
      unquoteBodyAux fuel1 rs = unquoteBodyAux fuel2 rs := by
  induction fuel1 with
  | zero => intro _ _ h; omega
  | succ n ih =>
    intro fuel2 rs h1 h2
    cases fuel2 with
    | zero => omega
    | succ m =>
      cases rs with
      | nil => rfl
      | cons r rs =>
        simp only [List.length_cons] at h1 h2
        by_cases hq : r = dquote
        · cases rs <;> simp [unquoteBodyAux, hq]
        by_cases hn : r = newline
        · cases rs <;> simp [unquoteBodyAux, hq, hn]
        by_cases hb : r = backslash
        · subst hb
          cases rs with
          | nil => simp [unquoteBodyAux]
          | cons c rs1 =>
            simp only [List.length_cons] at h1 h2
            have hbq : ¬ backslash = dquote := by decide
            have hbn : ¬ backslash = newline := by decide
            simp only [unquoteBodyAux, hbq, hbn, if_true, if_false]
            cases simpleEscape c with
            | some b => simp only; rw [ih m rs1 (by omega) (by omega)]
            | none =>
              simp only
              split_ifs
              · cases hrd : readDigits hexVal 16 2 0 rs1 with
                | none => rfl
                | some p =>
                  have := readDigits_length _ _ _ _ _ _ _ hrd
                  simp only
                  rw [ih m p.2 (by omega) (by omega)]
              · cases hrd : readDigits hexVal 16 4 0 rs1 with
                | none => rfl
                | some p =>
                  have := readDigits_length _ _ _ _ _ _ _ hrd
                  simp only
                  rw [ih m p.2 (by omega) (by omega)]
              · cases hrd : readDigits hexVal 16 8 0 rs1 with
                | none => rfl
                | some p =>
                  have := readDigits_length _ _ _ _ _ _ _ hrd
                  simp only
                  rw [ih m p.2 (by omega) (by omega)]
              · cases hrd : readDigits octVal 8 3 0 (c :: rs1) with
                | none => rfl
                | some p =>
                  have := readDigits_length _ _ _ _ _ _ _ hrd
                  simp only [List.length_cons] at this
                  simp only
                  rw [ih m p.2 (by omega) (by omega)]
        · rw [unquoteBodyAux_plain n r rs hq hn hb, unquoteBodyAux_plain m r rs hq hn hb,
            ih m rs (by omega) (by omega)]

/-! ## What escaping changes -/

theorem mem_encodeRune_ascii (r : Nat) (b : Byte) (hb : b.val < 0x80)
    (h : b ∈ encodeRune r) : r = b.val := by
  unfold encodeRune at h
  split_ifs at h with h1 h2 h3 h4
  · simp only [List.mem_singleton] at h
    subst h; simp only [toByte_val]; omega
  · simp only [List.mem_cons, List.mem_singleton, List.not_mem_nil, or_false] at h
    rcases h with h | h <;> subst h <;> simp only [toByte_val] at hb <;> omega
  · simp only [List.mem_cons, List.mem_singleton, List.not_mem_nil, or_false] at h
    rcases h with h | h | h <;> subst h <;> exact absurd hb (by decide)
  · simp only [List.mem_cons, List.mem_singleton, List.not_mem_nil, or_false] at h
    rcases h with h | h | h <;> subst h <;> simp only [toByte_val] at hb <;> omega
  · simp only [List.mem_cons, List.mem_singleton, List.not_mem_nil, or_false] at h
    simp only [MaxRune, not_or, not_lt] at h3
    rcases h with h | h | h | h <;> subst h <;> simp only [toByte_val] at hb <;> omega

theorem mem_encodeRunes_ascii (rs : List Nat) (r : Nat) (hr : r ≤ 0x7F)
    (h : toByte r ∈ encodeRunes rs) : r ∈ rs := by
  unfold encodeRunes at h
  obtain ⟨x, hx, hbx⟩ := List.mem_flatMap.mp h
  have := mem_encodeRune_ascii x (toByte r) (by simp only [toByte_val]; omega) hbx
  simp only [toByte_val] at this
  have hxr : x = r := by omega
  rw [← hxr]; exact hx

theorem encodeRune_length_le_escapeImage (r : Nat) :
    (encodeRune r).length ≤ (escapeImage r).length := by
  unfold escapeImage
  split_ifs with h1 h2
  · subst h1; decide
  · subst h2; decide
  · exact le_refl _

theorem encodeRunes_length_le (rs : List Nat) :
    (encodeRunes rs).length ≤ (rs.flatMap escapeImage).length := by
  induction rs with
  | nil => simp [encodeRunes]
  | cons r rs ih =>
    have := encodeRune_length_le_escapeImage r
    simp only [encodeRunes, List.flatMap_cons, List.length_append] at ih ⊢
    omega

theorem encodeRunes_length_lt (rs : List Nat) (h : backslash ∈ rs ∨ dquote ∈ rs) :
    (encodeRunes rs).length < (rs.flatMap escapeImage).length := by
  induction rs with
  | nil => simp at h
  | cons r rs ih =>
    have h1 := encodeRune_length_le_escapeImage r
    have h2 := encodeRunes_length_le rs
    simp only [encodeRunes, List.flatMap_cons, List.length_append] at ih h2 ⊢
    by_cases hr : r = backslash ∨ r = dquote
    · have : (encodeRune r).length < (escapeImage r).length := by
        rcases hr with hr | hr <;> subst hr <;> decide
      omega
    · have hrest : backslash ∈ rs ∨ dquote ∈ rs := by
        rcases h with h | h
        · rcases List.mem_cons.mp h with h | h
          · exact absurd (Or.inl h.symm) hr
          · exact Or.inl h
        · rcases List.mem_cons.mp h with h | h
          · exact absurd (Or.inr h.symm) hr
          · exact Or.inr h
      have := ih hrest
      omega

/-- A string of valid UTF-8 that has a backslash or a double quote is changed
by `escapeString`. -/
theorem escapeString_encodeRunes_changed (rs : List Nat) (h : ∀ r ∈ rs, validRune r = true)
    (hc : toByte backslash ∈ encodeRunes rs ∨ toByte dquote ∈ encodeRunes rs) :
    escapeString (encodeRunes rs) ≠ encodeRunes rs := by
  have hmem : backslash ∈ rs ∨ dquote ∈ rs := by
    rcases hc with hc | hc
    · exact Or.inl (mem_encodeRunes_ascii rs backslash (by decide) hc)
    · exact Or.inr (mem_encodeRunes_ascii rs dquote (by decide) hc)
  intro heq
  have hlt := encodeRunes_length_lt rs hmem
  rw [escapeString_eq_flatMap, rangeRunes_encodeRunes rs h] at heq
  rw [heq] at hlt
  exact lt_irrefl _ hlt

/-! ## The generation run -/

/-- A run either reaches the write with every earlier stage successful, or
ends with a fatal error and the output file as it was. -/
theorem main_cases (env : Env) (fs : FileState) :
    (∃ src, ReachesWrite env src ∧
      main env fs = ((env.writeFile src fs.content).1.map
          (fun e => Fatal.generate (GenError.writeOutput e)),
        ⟨(env.writeFile src fs.content).2, fs.writes + 1⟩)) ∨
    ((¬ ∃ src, ReachesWrite env src) ∧ ∃ f, ∀ fs1, main env fs1 = (some f, fs1)) := by
  cases hget : env.httpGet with
  | error e =>
    refine Or.inr ⟨?_, .fetch e, fun fs1 => by simp [main, hget]⟩
    rintro ⟨src, resp, xmlData, tbl, buf, h1, _⟩
    rw [hget] at h1; cases h1
  | ok resp =>
    by_cases hs : resp.StatusCode = 200
    · cases hb : resp.Body with
      | error e =>
        refine Or.inr ⟨?_, .readBody e, fun fs1 => by simp [main, hget, hs, hb]⟩
        rintro ⟨src, resp1, xmlData, tbl, buf, h1, _, h3, _⟩
        rw [hget] at h1; cases h1
        rw [hb] at h3; cases h3
      | ok xmlData =>
        cases hp : parseMimeXML (env.xmlTokens xmlData) with
        | mk otbl oerr =>
          cases oerr with
          | some err =>
            refine Or.inr ⟨?_, .parse err, fun fs1 => by simp [main, hget, hs, hb, hp]⟩
            rintro ⟨src, resp1, xmlData1, tbl, buf, h1, _, h3, h4, _⟩
            rw [hget] at h1; cases h1
            rw [hb] at h3; cases h3
            rw [hp] at h4; cases h4
          | none =>
            have hsome : ∃ tbl, otbl = some tbl := by
              rcases parseMimeXML_result_cases (env.xmlTokens xmlData) with
                ⟨tbl, ht⟩ | ⟨err, ht⟩
              · rw [hp] at ht; exact ⟨tbl, (Prod.mk.inj ht).1⟩
              · rw [hp] at ht; cases (Prod.mk.inj ht).2
            obtain ⟨tbl, rfl⟩ := hsome
            cases htp : env.templateParse with
            | error e =>
              refine Or.inr ⟨?_, .generate (.parseTemplate e),
                fun fs1 => by simp [main, generateGoFile, hget, hs, hb, hp, htp]⟩
              rintro ⟨src, resp1, xmlData1, tbl1, buf, h1, _, h3, h4, h5, _⟩
              rw [htp] at h5; cases h5
            | ok u =>
              cases hte : env.templateExecute env.timestamp tbl with
              | error e =>
                refine Or.inr ⟨?_, .generate (.executeTemplate e),
                  fun fs1 => by simp [main, generateGoFile, hget, hs, hb, hp, htp, hte]⟩
                rintro ⟨src, resp1, xmlData1, tbl1, buf, h1, _, h3, h4, h5, h6, _⟩
                rw [hget] at h1; cases h1
                rw [hb] at h3; cases h3
                rw [hp] at h4; cases h4
                rw [hte] at h6; cases h6
              | ok buf =>
                cases hf : env.formatSource buf with
                | error e =>
                  refine Or.inr ⟨?_, .generate (.formatCode e), fun fs1 => by
                    simp [main, generateGoFile, hget, hs, hb, hp, htp, hte, hf]⟩
                  rintro ⟨src, resp1, xmlData1, tbl1, buf1, h1, _, h3, h4, h5, h6, h7⟩
                  rw [hget] at h1; cases h1
                  rw [hb] at h3; cases h3
                  rw [hp] at h4; cases h4
                  rw [hte] at h6; cases h6
                  rw [hf] at h7; cases h7
                | ok src =>
                  refine Or.inl ⟨src, ⟨resp, xmlData, tbl, buf, hget, hs, hb, hp, htp, hte, hf⟩,
                    ?_⟩
                  cases hw : env.writeFile src fs.content with
                  | mk oe content =>
                    cases oe <;>
                      simp [main, generateGoFile, hget, hs, hb, hp, htp, hte, hf, hw]
    · refine Or.inr ⟨?_, .status resp.StatusCode, fun fs1 => by simp [main, hget, hs]⟩
      rintro ⟨src, resp1, xmlData, tbl, buf, h1, h2, _⟩
      rw [hget] at h1; cases h1
      exact hs h2

/-- When `generateGoFile` returns no error, the template was executed on the
table it was given, the result was formatted, and the formatted text was
written. -/
theorem generateGoFile_ok (env : Env) (descriptions : GoMap) (fs : FileState)
    (h : (generateGoFile env descriptions fs).1 = none) :
    ∃ buf src, env.templateExecute env.timestamp descriptions = .ok buf ∧
      env.formatSource buf = .ok src ∧
      (generateGoFile env descriptions fs).2
        = ⟨(env.writeFile src fs.content).2, fs.writes + 1⟩ := by
  cases htp : env.templateParse with
  | error e => simp [generateGoFile, htp] at h
  | ok u =>
    cases hte : env.templateExecute env.timestamp descriptions with
    | error e => simp [generateGoFile, htp, hte] at h
    | ok buf =>
      cases hf : env.formatSource buf with
      | error e => simp [generateGoFile, htp, hte, hf] at h
      | ok src =>
        refine ⟨buf, src, rfl, hf, ?_⟩
        cases hw : env.writeFile src fs.content with
        | mk oe content =>
          cases oe <;> simp [generateGoFile, htp, hte, hf, hw]

/-- Once the fetch and the parse have succeeded, `main` is `generateGoFile` on
the table `parseMimeXML` returned. -/
theorem main_of_parsed (env : Env) (fs : FileState) (resp : Response) (xmlData : GoString)
    (tbl : GoMap) (hget : env.httpGet = .ok resp) (hs : resp.StatusCode = 200)
    (hb : resp.Body = .ok xmlData)
    (hp : parseMimeXML (env.xmlTokens xmlData) = (some tbl, none)) :
    main env fs = ((generateGoFile env tbl fs).1.map Fatal.generate,
      (generateGoFile env tbl fs).2) := by
  cases hg : generateGoFile env tbl fs with
  | mk oe fs1 =>
    cases oe <;> simp [main, hget, hs, hb, hp, hg]

/-! ## The claims -/

/-- C1. `Get` matches the identifier exactly against the stored keys: when `id`
is a key, the result is the description stored under `id` with `true` (for a
well-formed table, the description of the one entry with that key); when no
entry has exactly the key `id`, the result is the empty string with `false`.
`Get` is a total function into pairs, so it has no failure. -/
theorem Get_exact_match (mimeData : GoMap) (id : GoString) :
    (id ∈ mimeData.keys →
      ∃ d, (id, d) ∈ mimeData ∧ mimeData.get? id = some d ∧ Get mimeData id = (d, true)) ∧
    (id ∉ mimeData.keys → Get mimeData id = ([], false)) ∧
    (mimeData.WF → ∀ d, (id, d) ∈ mimeData → Get mimeData id = (d, true)) := by
  refine ⟨?_, ?_, ?_⟩
  · intro hk
    obtain ⟨v, hv⟩ := GoMap.get?_isSome_of_mem_keys mimeData id hk
    exact ⟨v, GoMap.mem_of_get? mimeData id v hv, hv, by simp [Get, hv]⟩
  · intro hk
    have := (GoMap.get?_eq_none_iff mimeData id).mpr hk
    simp [Get, this]
  · intro hwf d hd
    have := GoMap.get?_of_mem mimeData hwf id d hd
    simp [Get, this]

/-- C1, at a table with the one key `text/plain`: that key is found, and the
same identifier in another case is not. -/
theorem Get_exact_match_witness :
    Get [(lit "text/plain", lit "Plain text document")] (lit "text/plain")
        = (lit "Plain text document", true) ∧
    Get [(lit "text/plain", lit "Plain text document")] (lit "Text/Plain") = ([], false) :=
  ⟨(Get_exact_match [(lit "text/plain", lit "Plain text document")] (lit "text/plain")).2.2
      (by unfold GoMap.WF; decide) _ (by decide),
   (Get_exact_match [(lit "text/plain", lit "Plain text document")] (lit "Text/Plain")).2.1
      (by decide)⟩

/-- C2. `escapeString s` is the concatenation, in order, of the images of the
characters of `s`, the runes the `range` loop yields, where the backslash maps
to two backslashes, the double quote to a backslash and a double quote, and
any other character to itself (its UTF-8 encoding).  For a description `d`, a
text, whose Go string is its UTF-8 encoding `lit d`, the characters that
`range` yields are the characters of `d`, and `escapeString` returns the
string itself when it has neither a backslash nor a double quote. -/
theorem escapeString_images (s : GoString) (d : String) :
    escapeString s = (rangeRunes s).flatMap escapeImage ∧
    escapeImage backslash = [toByte backslash, toByte backslash] ∧
    escapeImage dquote = [toByte backslash, toByte dquote] ∧
    (∀ r, r ≠ backslash → r ≠ dquote → escapeImage r = encodeRune r) ∧
    rangeRunes (lit d) = d.toList.map Char.toNat ∧
    escapeString (lit d) = (d.toList.map Char.toNat).flatMap escapeImage ∧
    (toByte backslash ∉ lit d → toByte dquote ∉ lit d → escapeString (lit d) = lit d) := by
  have hvalid : ∀ r ∈ d.toList.map Char.toNat, validRune r = true := by
    intro r hr
    obtain ⟨c, _, hc⟩ := List.mem_map.mp hr
    rw [← hc]; exact validRune_toNat c
  have hrange : rangeRunes (lit d) = d.toList.map Char.toNat :=
    rangeRunes_encodeRunes _ hvalid
  refine ⟨escapeString_eq_flatMap s, rfl, rfl, ?_, hrange, ?_, ?_⟩
  · intro r h1 h2
    simp [escapeImage, h1, h2]
  · rw [escapeString_eq_flatMap, hrange]
  · intro hb hq
    exact escapeString_encodeRunes_plain _ hvalid hb hq

/-- C2, on the description `Plain text document`, which has neither a
backslash nor a double quote. -/
theorem escapeString_images_witness :
    escapeString (lit "Plain text document") = lit "Plain text document" :=
  (escapeString_images [] "Plain text document").2.2.2.2.2.2 (by decide) (by decide)

/-- A remark on strings that are not text: `range` reads a byte that is not
UTF-8 as `utf8.RuneError`, so `escapeString` turns the byte `0xFF` into the
three bytes of `U+FFFD`.  The descriptions `encoding/xml` decodes are always
valid UTF-8. -/
theorem escapeString_invalid_utf8 :
    escapeString [0xFF] = [0xEF, 0xBF, 0xBD] := by
  decide

/-- C3, at a failing input: the description made of a double quote and a
newline is valid UTF-8 and contains a double quote; `escapeString` leaves the
newline as it is, and the escaped text between double quotes is not a Go
interpreted string literal (the literal is not terminated on its line). -/
theorem escapeString_newline_not_a_literal :
    ValidUTF8 [0x22, 0x0A] ∧ toByte dquote ∈ ([0x22, 0x0A] : GoString) ∧
    escapeString [0x22, 0x0A] = [0x5C, 0x22, 0x0A] ∧
    quoted (escapeString [0x22, 0x0A]) = [0x22, 0x5C, 0x22, 0x0A, 0x22] ∧
    goUnquote (quoted (escapeString [0x22, 0x0A])) = none ∧
    goUnquote (quoted (escapeString [0x22, 0x0A])) ≠ some [0x22, 0x0A] := by
  refine ⟨⟨[0x22, 0x0A], by decide, by decide⟩, by decide, by decide, by decide, by decide,
    by decide⟩

/-- The example of the specification: `He said "hi"\now` escapes to
`He said \"hi\"\\now`, and that text between double quotes is a literal whose
value is the original. -/
theorem escapeString_example :
    escapeString (lit "He said " ++ [0x22] ++ lit "hi" ++ [0x22, 0x5C] ++ lit "now")
      = lit "He said " ++ [0x5C, 0x22] ++ lit "hi" ++ [0x5C, 0x22, 0x5C, 0x5C] ++ lit "now" ∧
    goUnquote (quoted (escapeString
        (lit "He said " ++ [0x22] ++ lit "hi" ++ [0x22, 0x5C] ++ lit "now")))
      = some (lit "He said " ++ [0x22] ++ lit "hi" ++ [0x22, 0x5C] ++ lit "now") := by
  decide

/-- The round trip of the specification where it holds: a description that is
valid UTF-8 and has no newline, no NUL and no byte order mark, once escaped and
put between double quotes, is a Go interpreted string literal whose value is
the description. -/
theorem goUnquote_quoted_escapeString (rs : List Nat)
    (h : ∀ r ∈ rs, validRune r = true ∧ r ≠ newline ∧ r ≠ 0 ∧ r ≠ bom) :
    goUnquote (quoted (escapeString (encodeRunes rs))) = some (encodeRunes rs) := by
  rw [quoted_escapeString rs (fun r hr => (h r hr).1)]
  have hall : ∀ x ∈ dquote :: (rs.flatMap escapeRunes ++ [dquote]),
      validRune x = true ∧ x ≠ 0 ∧ x ≠ bom := by
    intro x hx
    rcases List.mem_cons.mp hx with h1 | h1
    · subst h1; decide
    · rcases List.mem_append.mp h1 with h2 | h2
      · obtain ⟨r, hr, hxr⟩ := List.mem_flatMap.mp h2
        obtain ⟨hv, _, h0, hb⟩ := h r hr
        unfold escapeRunes at hxr
        split_ifs at hxr with hc1 hc2
        · have : x = backslash := by simpa using hxr
          subst this; decide
        · have : x = backslash ∨ x = dquote := by simpa using hxr
          rcases this with h3 | h3 <;> subst h3 <;> decide
        · have : x = r := by simpa using hxr
          subst this; exact ⟨hv, h0, hb⟩
      · have : x = dquote := by simpa using h2
        subst this; decide
  unfold goUnquote
  rw [sourceRunes_encodeRunes _ hall]
  simp only [if_true]
  exact unquoteBodyAux_escaped rs (fun r hr => (h r hr).2.1) _ (by simp)

/-- The defect behind C3 in general: whenever a description has a newline, the
escaped text between double quotes is not a Go interpreted string literal. -/
theorem goUnquote_quoted_escapeString_newline (rs : List Nat)
    (h : ∀ r ∈ rs, validRune r = true ∧ r ≠ 0 ∧ r ≠ bom) (hn : newline ∈ rs) :
    goUnquote (quoted (escapeString (encodeRunes rs))) = none := by
  rw [quoted_escapeString rs (fun r hr => (h r hr).1)]
  cases hs : sourceRunes (encodeRunes (dquote :: (rs.flatMap escapeRunes ++ [dquote]))) with
  | none => simp [goUnquote, hs]
  | some xs =>
    have hx : sourceRunes (encodeRune dquote
        ++ encodeRunes (rs.flatMap escapeRunes ++ [dquote])) = some xs := hs
    rw [sourceRunes_encodeRune_append dquote (by decide) (by decide) (by decide)] at hx
    cases hb : sourceRunes (encodeRunes (rs.flatMap escapeRunes ++ [dquote])) with
    | none => rw [hb] at hx; simp at hx
    | some body =>
      have hbody : body = rs.flatMap escapeRunes ++ [dquote] := by
        have hall : ∀ x ∈ rs.flatMap escapeRunes ++ [dquote],
            validRune x = true ∧ x ≠ 0 ∧ x ≠ bom := by
          intro x hx
          rcases List.mem_append.mp hx with h2 | h2
          · obtain ⟨r, hr, hxr⟩ := List.mem_flatMap.mp h2
            unfold escapeRunes at hxr
            split_ifs at hxr with hc1 hc2
            · have : x = backslash := by simpa using hxr
              subst this; decide
            · have : x = backslash ∨ x = dquote := by simpa using hxr
              rcases this with h3 | h3 <;> subst h3 <;> decide
            · have : x = r := by simpa using hxr
              rw [this]; exact h r hr
          · have : x = dquote := by simpa using h2
            subst this; decide
        rw [sourceRunes_encodeRunes _ hall] at hb
        exact (Option.some.inj hb).symm
      rw [hb] at hx
      simp only [Option.map_some', Option.some.injEq] at hx
      subst hx
      simp only [goUnquote, hs, if_true]
      rw [hbody]
      exact unquoteBodyAux_newline rs hn _

/-- C4, as stated, fails: with the identifier `a/b` carried first with the
description `x` and then with an empty description, the table holds `x` for
it, which is not the escaped description of the last element carrying it. -/
theorem parseMimeXML_last_element_counterexample :
    parseMimeXML [element (lit "a/b") (lit "x"), element (lit "a/b") []]
        = (some [(lit "a/b", lit "x")], none) ∧
    lastCarrying (mimeElements [element (lit "a/b") (lit "x"), element (lit "a/b") []])
        (lit "a/b") = some ⟨lit "a/b", []⟩ ∧
    GoMap.get? [(lit "a/b", lit "x")] (lit "a/b") ≠ some (escapeString []) := by
  decide

/-- C4, amended. When `parseMimeXML` succeeds, the table has no key twice, so
at most one entry per identifier; an identifier has an entry exactly when some
element carries it with a non-empty description, and the entry is then the
escaped description of the last such element in document order. -/
theorem parseMimeXML_last_nonempty_wins (reader : List TokenRead) (tbl : GoMap)
    (h : parseMimeXML reader = (some tbl, none)) :
    tbl.WF ∧ ∀ id : GoString,
      (tbl.filter (fun e => decide (e.1 = id))).length ≤ 1 ∧
      tbl.get? id = (lastDescription (mimeElements reader) id).map escapeString ∧
      (id ∈ tbl.keys ↔ ∃ mt ∈ mimeElements reader, mt.Type_ = id ∧ mt.Comment ≠ []) := by
  have hwf := parseMimeXML_WF reader tbl h
  refine ⟨hwf, fun id => ⟨?_, parseMimeXML_get? reader tbl h id, ?_⟩⟩
  · exact GoMap.entries_le_one tbl hwf id
  · constructor
    · intro hk
      obtain ⟨v, hv⟩ := GoMap.get?_isSome_of_mem_keys tbl id hk
      obtain ⟨mt, hm, h1, h2, _⟩ := parseMimeXML_get?_some reader tbl h id v hv
      exact ⟨mt, hm, h1, h2⟩
    · rintro ⟨mt, hm, h1, h2⟩
      by_contra hk
      have hn := (GoMap.get?_eq_none_iff tbl id).mpr hk
      rw [parseMimeXML_get? reader tbl h id, Option.map_eq_none',
        lastDescription_none] at hn
      exact h2 (hn mt hm h1)

/-- C4, amended, on a source that gives `a/b` three times, the last time with
an empty description: the table has the one entry of the second element. -/
theorem parseMimeXML_last_nonempty_wins_witness :
    GoMap.WF [(lit "a/b", lit "y")] ∧ ∀ id : GoString,
      (List.filter (fun e => decide (e.1 = id)) [(lit "a/b", lit "y")]).length ≤ 1 ∧
      GoMap.get? [(lit "a/b", lit "y")] id
        = (lastDescription (mimeElements [element (lit "a/b") (lit "x"),
            element (lit "a/b") (lit "y"), element (lit "a/b") []]) id).map escapeString ∧
      (id ∈ GoMap.keys [(lit "a/b", lit "y")] ↔
        ∃ mt ∈ mimeElements [element (lit "a/b") (lit "x"),
            element (lit "a/b") (lit "y"), element (lit "a/b") []],
          mt.Type_ = id ∧ mt.Comment ≠ []) :=
  parseMimeXML_last_nonempty_wins
    [element (lit "a/b") (lit "x"), element (lit "a/b") (lit "y"), element (lit "a/b") []]
    [(lit "a/b", lit "y")] (by decide)

/-- C5, as stated, fails: the identifier `x/y` is present with an empty
description (in the first element), and yet the table has an entry for it and
the lookup finds it, because a later element carries it with the description
`z`. -/
theorem parseMimeXML_empty_then_nonempty_counterexample :
    (∃ mt ∈ mimeElements [element (lit "x/y") [], element (lit "x/y") (lit "z")],
      mt.Type_ = lit "x/y" ∧ mt.Comment = []) ∧
    parseMimeXML [element (lit "x/y") [], element (lit "x/y") (lit "z")]
        = (some [(lit "x/y", lit "z")], none) ∧
    Get [(lit "x/y", lit "z")] (lit "x/y") = (lit "z", true) := by
  refine ⟨⟨⟨lit "x/y", []⟩, by decide, rfl, rfl⟩, by decide, by decide⟩

/-- C5, amended. When `parseMimeXML` succeeds: if no element carries `id` with
a non-empty description (in particular if no element carries `id` at all), the
table has no entry for `id` and the lookup of `id` gives the empty string and
`false`; and every entry of the table comes from an element that carries its
identifier with a non-empty description. -/
theorem parseMimeXML_omits_empty (reader : List TokenRead) (tbl : GoMap)
    (h : parseMimeXML reader = (some tbl, none)) (id : GoString) :
    ((∀ mt ∈ mimeElements reader, mt.Type_ = id → mt.Comment = []) →
      tbl.get? id = none ∧ id ∉ tbl.keys ∧ Get tbl id = ([], false)) ∧
    ((∀ mt ∈ mimeElements reader, mt.Type_ ≠ id) → Get tbl id = ([], false)) ∧
    (∀ v, tbl.get? id = some v →
      ∃ mt ∈ mimeElements reader, mt.Type_ = id ∧ mt.Comment ≠ [] ∧
        v = escapeString mt.Comment) := by
  have key : (∀ mt ∈ mimeElements reader, mt.Type_ = id → mt.Comment = []) →
      tbl.get? id = none := by
    intro hall
    rw [parseMimeXML_get? reader tbl h id, Option.map_eq_none', lastDescription_none]
    exact hall
  refine ⟨?_, ?_, ?_⟩
  · intro hall
    have hn := key hall
    exact ⟨hn, (GoMap.get?_eq_none_iff tbl id).mp hn, by simp [Get, hn]⟩
  · intro hall
    have hn := key (fun mt hm he => absurd he (hall mt hm))
    simp [Get, hn]
  · intro v hv
    exact parseMimeXML_get?_some reader tbl h id v hv

/-- C5, amended, on a source where `x/y` only has an empty description and
`p/q` does not occur. -/
theorem parseMimeXML_omits_empty_witness :
    Get [(lit "a/b", lit "c")] (lit "x/y") = ([], false) ∧
    Get [(lit "a/b", lit "c")] (lit "p/q") = ([], false) :=
  ⟨((parseMimeXML_omits_empty [element (lit "x/y") [], element (lit "a/b") (lit "c")]
      [(lit "a/b", lit "c")] (by decide) (lit "x/y")).1 (by decide)).2.2,
   (parseMimeXML_omits_empty [element (lit "x/y") [], element (lit "a/b") (lit "c")]
      [(lit "a/b", lit "c")] (by decide) (lit "p/q")).2.1 (by decide)⟩

/-- C6, as stated, fails: a `mime-type` element without `type` attribute (the
field `Type` is then empty) and with the description `x` puts the empty
string among the keys of the table. -/
theorem parseMimeXML_empty_key_counterexample :
    parseMimeXML [element [] (lit "x")] = (some [([], lit "x")], none) ∧
    ([] : GoString) ∈ GoMap.keys [([], lit "x")] := by
  decide

/-- C6, amended. When `parseMimeXML` succeeds, every key of the table is the
`type` attribute of an element that has a non-empty description; the keys are
all non-empty when every such element has a non-empty `type` attribute. -/
theorem parseMimeXML_keys (reader : List TokenRead) (tbl : GoMap)
    (h : parseMimeXML reader = (some tbl, none)) :
    (∀ k ∈ tbl.keys, ∃ mt ∈ mimeElements reader, mt.Type_ = k ∧ mt.Comment ≠ []) ∧
    ((∀ mt ∈ mimeElements reader, mt.Comment ≠ [] → mt.Type_ ≠ []) →
      ∀ k ∈ tbl.keys, k ≠ []) := by
  have key : ∀ k ∈ tbl.keys,
      ∃ mt ∈ mimeElements reader, mt.Type_ = k ∧ mt.Comment ≠ [] := by
    intro k hk
    obtain ⟨v, hv⟩ := GoMap.get?_isSome_of_mem_keys tbl k hk
    obtain ⟨mt, hm, h1, h2, _⟩ := parseMimeXML_get?_some reader tbl h k v hv
    exact ⟨mt, hm, h1, h2⟩
  refine ⟨key, ?_⟩
  intro hall k hk
  obtain ⟨mt, hm, h1, h2⟩ := key k hk
  rw [← h1]
  exact hall mt hm h2

/-- C6, amended, on a source whose elements all have a `type` attribute: the
empty string is not a key of the table. -/
theorem parseMimeXML_keys_witness :
    ([] : GoString) ∉ GoMap.keys [(lit "a/b", lit "c")] :=
  fun hmem =>
    (parseMimeXML_keys [element (lit "x/y") [], element (lit "a/b") (lit "c")]
      [(lit "a/b", lit "c")] (by decide)).2 (by decide) [] hmem rfl

/-- C7. When `parseMimeXML` succeeds, every value stored in the table is
non-empty: it is the escaped form of a non-empty description, and
`escapeString` maps a non-empty string to a non-empty string. -/
theorem parseMimeXML_values_nonempty (reader : List TokenRead) (tbl : GoMap)
    (h : parseMimeXML reader = (some tbl, none)) :
    (∀ k v, (k, v) ∈ tbl →
      v ≠ [] ∧ ∃ mt ∈ mimeElements reader, mt.Type_ = k ∧ mt.Comment ≠ [] ∧
        v = escapeString mt.Comment) ∧
    (∀ s : GoString, s ≠ [] → escapeString s ≠ []) := by
  refine ⟨?_, escapeString_ne_nil⟩
  intro k v hkv
  have hv := GoMap.get?_of_mem tbl (parseMimeXML_WF reader tbl h) k v hkv
  obtain ⟨mt, hm, h1, h2, h3⟩ := parseMimeXML_get?_some reader tbl h k v hv
  exact ⟨by rw [h3]; exact escapeString_ne_nil _ h2, mt, hm, h1, h2, h3⟩

/-- C7, on a source with an empty description and a description made of one
double quote: the one value of the table is the escaped double quote. -/
theorem parseMimeXML_values_nonempty_witness :
    ([0x5C, 0x22] : GoString) ≠ [] ∧
    ∃ mt ∈ mimeElements [element (lit "x/y") [], element (lit "a/b") [0x22]],
      mt.Type_ = lit "a/b" ∧ mt.Comment ≠ [] ∧ [0x5C, 0x22] = escapeString mt.Comment :=
  (parseMimeXML_values_nonempty [element (lit "x/y") [], element (lit "a/b") [0x22]]
    [(lit "a/b", [0x5C, 0x22])] (by decide)).1 (lit "a/b") [0x5C, 0x22] (by decide)

/-- C8. `parseMimeXML` returns either a table and no error, or an error and
no table.  It returns an error and no table as soon as one read fails (a
token error, or a `mime-type` element that does not decode), whatever the
table held before (`parseLoop` at any `d`), and the error is that of the first
failing read; it returns a table exactly when no read fails. -/
theorem parseMimeXML_error_without_table (reader : List TokenRead) :
    ((∃ t ∈ reader, t.fails = true) → ∃ err, parseMimeXML reader = (none, some err)) ∧
    ((∀ t ∈ reader, t.fails = false) → ∃ tbl, parseMimeXML reader = (some tbl, none)) ∧
    (∀ d : GoMap, (∃ t ∈ reader, t.fails = true) →
      ∃ err, parseLoop reader d = (none, some err)) ∧
    (∀ (pre post : List TokenRead) (err : XmlError), reader = pre ++ .fail err :: post →
      (∀ t ∈ pre, t.fails = false) →
      parseMimeXML reader = (none, some (.decodingToken err))) ∧
    (∀ (pre post : List TokenRead) (err : XmlError),
      reader = pre ++ .startElement mimeTypeName (.error err) :: post →
      (∀ t ∈ pre, t.fails = false) →
      parseMimeXML reader = (none, some (.decodingElement err))) ∧
    ((∃ tbl, parseMimeXML reader = (some tbl, none)) ∨
      (∃ err, parseMimeXML reader = (none, some err))) := by
  refine ⟨parseLoop_fails reader [], parseLoop_succeeds reader [],
    fun d => parseLoop_fails reader d, ?_, ?_, ?_⟩
  · intro pre post err hr hpre
    subst hr
    obtain ⟨d1, hd1⟩ := parseLoop_prefix pre hpre (.fail err :: post) []
    unfold parseMimeXML
    rw [hd1]; rfl
  · intro pre post err hr hpre
    subst hr
    obtain ⟨d1, hd1⟩ := parseLoop_prefix pre hpre
      (.startElement mimeTypeName (.error err) :: post) []
    unfold parseMimeXML
    rw [hd1]
    simp [parseLoop]
  · exact parseMimeXML_result_cases reader

/-- C8, on a stream whose third read fails after an entry was collected, and
on one where a `mime-type` element does not decode. -/
theorem parseMimeXML_error_without_table_witness :
    parseMimeXML [element (lit "a/b") (lit "c"), .other, .fail (lit "unexpected EOF"),
        element (lit "x/y") (lit "z")]
      = (none, some (.decodingToken (lit "unexpected EOF"))) ∧
    parseMimeXML [element (lit "a/b") (lit "c"),
        .startElement mimeTypeName (.error (lit "bad element"))]
      = (none, some (.decodingElement (lit "bad element"))) :=
  ⟨(parseMimeXML_error_without_table _).2.2.2.1
      [element (lit "a/b") (lit "c"), .other] [element (lit "x/y") (lit "z")]
      (lit "unexpected EOF") rfl (by decide),
   (parseMimeXML_error_without_table _).2.2.2.2.1
      [element (lit "a/b") (lit "c")] [] (lit "bad element") rfl (by decide)⟩

/-- C9. The output file as explicit state: a run changes it only by the one
call of `ioutil.WriteFile`, made after the fetch, the parse, the template and
`format.Source` have all succeeded, and it makes that call whenever they have;
when the parse fails, or when formatting fails, the run ends with that fatal
error and the file is as it was; a run that ends without having written fails
with the same error from any state of the file, so also when it is run again. -/
theorem main_all_or_nothing (env : Env) (fs : FileState) :
    ((main env fs).2 ≠ fs → ∃ src, ReachesWrite env src ∧
      (main env fs).2 = ⟨(env.writeFile src fs.content).2, fs.writes + 1⟩) ∧
    (∀ src, ReachesWrite env src → (main env fs).2.writes = fs.writes + 1) ∧
    (∀ resp xmlData err, env.httpGet = .ok resp → resp.StatusCode = 200 →
      resp.Body = .ok xmlData →
      (parseMimeXML (env.xmlTokens xmlData)).2 = some err →
      main env fs = (some (.parse err), fs)) ∧
    (∀ resp xmlData tbl buf err, env.httpGet = .ok resp → resp.StatusCode = 200 →
      resp.Body = .ok xmlData →
      parseMimeXML (env.xmlTokens xmlData) = (some tbl, none) →
      env.templateParse = .ok () →
      env.templateExecute env.timestamp tbl = .ok buf →
      env.formatSource buf = .error err →
      main env fs = (some (.generate (.formatCode err)), fs)) ∧
    ((main env fs).2 = fs → ∃ f, ∀ fs1, main env fs1 = (some f, fs1)) := by
  refine ⟨?_, ?_, ?_, ?_, ?_⟩
  · intro hne
    rcases main_cases env fs with ⟨src, hr, hm⟩ | ⟨_, f, hf⟩
    · exact ⟨src, hr, by rw [hm]⟩
    · exact absurd (by rw [hf fs]) hne
  · intro src hsrc
    rcases main_cases env fs with ⟨src1, _, hm⟩ | ⟨hno, _⟩
    · rw [hm]
    · exact absurd ⟨src, hsrc⟩ hno
  · intro resp xmlData err hget hs hb hp
    cases hpp : parseMimeXML (env.xmlTokens xmlData) with
    | mk otbl oerr =>
      rw [hpp] at hp
      simp only at hp
      subst hp
      simp [main, hget, hs, hb, hpp]
  · intro resp xmlData tbl buf err hget hs hb hp htp hte hf
    simp [main, generateGoFile, hget, hs, hb, hp, htp, hte, hf]
  · intro heq
    rcases main_cases env fs with ⟨src, _, hm⟩ | ⟨_, f, hf⟩
    · rw [hm] at heq
      have := congrArg FileState.writes heq
      simp at this
    · exact ⟨f, hf⟩

/-- C9, on a run whose input is not well-formed XML (the first read of the
decoder fails), from a state where the file exists, and on a run whose
rendered text does not format. -/
theorem main_all_or_nothing_witness :
    main (sampleEnv (lit "<mime-info") [.fail (lit "unexpected EOF")] true)
        ⟨some (lit "package mimedescription"), 0⟩
      = (some (.parse (.decodingToken (lit "unexpected EOF"))),
          ⟨some (lit "package mimedescription"), 0⟩) ∧
    main (sampleEnv [] [element (lit "a/b") [0x0A]] false) ⟨none, 0⟩
      = (some (.generate (.formatCode (lit "string literal not terminated"))),
          ⟨none, 0⟩) :=
  ⟨(main_all_or_nothing _ _).2.2.1 ⟨200, .ok (lit "<mime-info")⟩ (lit "<mime-info")
      (.decodingToken (lit "unexpected EOF")) rfl rfl rfl rfl,
   (main_all_or_nothing _ _).2.2.2.1 ⟨200, .ok []⟩ [] [(lit "a/b", [0x0A])]
      (lit "2024-01-01T00:00:00Z" ++ (quoted (lit "a/b") ++ quoted [0x0A]))
      (lit "string literal not terminated") rfl rfl rfl (by decide) rfl (by rfl)
      rfl⟩

/-- C10, as stated, fails: for an element whose description is one double
quote, `parseMimeXML` stores the escaped text, a backslash and a double quote,
not the description as decoded; and `generateGoFile` escapes nothing
afterwards: the template receives that table as it is, and the text rendered
from it and written holds the value between double quotes as it was stored,
not escaped a second time. -/
theorem parseMimeXML_stores_escaped_counterexample :
    parseMimeXML [element (lit "a/b") [0x22]] = (some [(lit "a/b", [0x5C, 0x22])], none) ∧
    GoMap.get? [(lit "a/b", [0x5C, 0x22])] (lit "a/b") ≠ some [0x22] ∧
    generateGoFile (sampleEnv [] [element (lit "a/b") [0x22]] true)
        [(lit "a/b", [0x5C, 0x22])] ⟨none, 0⟩
      = (none, ⟨some (lit "2024-01-01T00:00:00Z"
          ++ (quoted (lit "a/b") ++ quoted [0x5C, 0x22])), 1⟩) ∧
    main (sampleEnv [] [element (lit "a/b") [0x22]] true) ⟨none, 0⟩
      = (none, ⟨some (lit "2024-01-01T00:00:00Z"
          ++ (quoted (lit "a/b") ++ quoted [0x5C, 0x22])), 1⟩) ∧
    (main (sampleEnv [] [element (lit "a/b") [0x22]] true) ⟨none, 0⟩).2.content
      ≠ some (lit "2024-01-01T00:00:00Z"
          ++ (quoted (lit "a/b") ++ quoted (escapeString [0x5C, 0x22]))) := by
  decide

/-- C10, amended. When `parseMimeXML` succeeds, the value it stores for an
identifier is already the escaped description, `escapeString` applied by
`parseMimeXML` itself to the description of the last element that carries the
identifier with a non-empty description.  For a description of valid UTF-8 the
stored value is the description itself when it has neither a backslash nor a
double quote, and differs from it when it has one.  `generateGoFile` applies
no escaping: whenever it returns without error, the text it formats and writes
is what the template renders from the very table it was given, and in a run
of `main` that table is the one `parseMimeXML` returned. -/
theorem parseMimeXML_stores_escaped (reader : List TokenRead) (tbl : GoMap)
    (h : parseMimeXML reader = (some tbl, none)) (id v : GoString)
    (hv : tbl.get? id = some v) :
    (∃ mt ∈ mimeElements reader, mt.Type_ = id ∧ mt.Comment ≠ [] ∧
      lastDescription (mimeElements reader) id = some mt.Comment ∧
      v = escapeString mt.Comment ∧
      (ValidUTF8 mt.Comment → toByte backslash ∉ mt.Comment → toByte dquote ∉ mt.Comment →
        v = mt.Comment) ∧
      (ValidUTF8 mt.Comment → toByte backslash ∈ mt.Comment ∨ toByte dquote ∈ mt.Comment →
        v ≠ mt.Comment)) ∧
    (∀ (env : Env) (fs : FileState), (generateGoFile env tbl fs).1 = none →
      ∃ buf src, env.templateExecute env.timestamp tbl = .ok buf ∧
        env.formatSource buf = .ok src ∧
        (generateGoFile env tbl fs).2 = ⟨(env.writeFile src fs.content).2, fs.writes + 1⟩) ∧
    (∀ (env : Env) (fs : FileState) (resp : Response) (xmlData : GoString),
      env.httpGet = .ok resp → resp.StatusCode = 200 → resp.Body = .ok xmlData →
      env.xmlTokens xmlData = reader → (main env fs).1 = none →
      ∃ buf src, env.templateExecute env.timestamp tbl = .ok buf ∧
        env.formatSource buf = .ok src ∧
        (main env fs).2 = ⟨(env.writeFile src fs.content).2, fs.writes + 1⟩) := by
  refine ⟨?_, fun env fs hok => generateGoFile_ok env tbl fs hok, ?_⟩
  · rw [parseMimeXML_get? reader tbl h id] at hv
    cases hl : lastDescription (mimeElements reader) id with
    | none => rw [hl] at hv; simp at hv
    | some c =>
      rw [hl] at hv
      simp only [Option.map_some', Option.some.injEq] at hv
      obtain ⟨mt, hm, h1, h2, h3⟩ := lastDescription_some _ _ _ hl
      subst h3
      refine ⟨mt, hm, h1, h2, rfl, hv.symm, ?_, ?_⟩
      · rintro ⟨rs, hvalid, hs⟩ hb hq
        rw [← hv, hs]
        rw [hs] at hb hq
        exact escapeString_encodeRunes_plain rs hvalid hb hq
      · rintro ⟨rs, hvalid, hs⟩ hc
        rw [← hv, hs]
        rw [hs] at hc
        exact escapeString_encodeRunes_changed rs hvalid hc
  · intro env fs resp xmlData hget hs hb hx hok
    have hm := main_of_parsed env fs resp xmlData tbl hget hs hb (by rw [hx]; exact h)
    rw [hm] at hok ⊢
    cases hg : generateGoFile env tbl fs with
    | mk oe fs1 =>
      rw [hg] at hok
      cases oe with
      | some e => simp at hok
      | none =>
        obtain ⟨buf, src, h1, h2, h3⟩ := generateGoFile_ok env tbl fs (by rw [hg])
        rw [hg] at h3
        exact ⟨buf, src, h1, h2, h3⟩

/-- C10, amended, on the example of the specification: the element with the
type `text/plain` and the comment `Plain text document` gives the entry
`text/plain` to `Plain text document`, which `Get` then finds; and on the
table with the escaped double quote, `generateGoFile` renders the table it
was given. -/
theorem parseMimeXML_stores_escaped_witness :
    parseMimeXML [element (lit "text/plain") (lit "Plain text document")]
        = (some [(lit "text/plain", lit "Plain text document")], none) ∧
    Get [(lit "text/plain", lit "Plain text document")] (lit "text/plain")
        = (lit "Plain text document", true) ∧
    Get [(lit "text/plain", lit "Plain text document")] (lit "application/unknown")
        = ([], false) ∧
    (∃ mt ∈ mimeElements [element (lit "text/plain") (lit "Plain text document")],
      mt.Type_ = lit "text/plain" ∧ mt.Comment ≠ [] ∧
      lastDescription (mimeElements [element (lit "text/plain") (lit "Plain text document")])
        (lit "text/plain") = some mt.Comment ∧
      lit "Plain text document" = escapeString mt.Comment ∧
      (ValidUTF8 mt.Comment → toByte backslash ∉ mt.Comment → toByte dquote ∉ mt.Comment →
        lit "Plain text document" = mt.Comment) ∧
      (ValidUTF8 mt.Comment → toByte backslash ∈ mt.Comment ∨ toByte dquote ∈ mt.Comment →
        lit "Plain text document" ≠ mt.Comment)) ∧
    (∃ buf src,
      (sampleEnv [] [element (lit "a/b") [0x22]] true).templateExecute
          (sampleEnv [] [element (lit "a/b") [0x22]] true).timestamp
          [(lit "a/b", [0x5C, 0x22])] = .ok buf ∧
      (sampleEnv [] [element (lit "a/b") [0x22]] true).formatSource buf = .ok src ∧
      (generateGoFile (sampleEnv [] [element (lit "a/b") [0x22]] true)
          [(lit "a/b", [0x5C, 0x22])] ⟨none, 0⟩).2
        = ⟨((sampleEnv [] [element (lit "a/b") [0x22]] true).writeFile src none).2, 1⟩) :=
  ⟨by decide, by decide, by decide,
   (parseMimeXML_stores_escaped [element (lit "text/plain") (lit "Plain text document")]
    [(lit "text/plain", lit "Plain text document")] (by decide) (lit "text/plain")
    (lit "Plain text document") (by decide)).1,
   (parseMimeXML_stores_escaped [element (lit "a/b") [0x22]]
    [(lit "a/b", [0x5C, 0x22])] (by decide) (lit "a/b") [0x5C, 0x22] (by decide)).2.1
    (sampleEnv [] [element (lit "a/b") [0x22]] true) ⟨none, 0⟩ (by decide)⟩

end MimeDescription
